import Mathlib

/-!
# Trie dictionary (`dictionary.c`)

A shallow embedding of the trie dictionary of `src/dictionary.c` over an explicit heap.

* A pointer is `Option Nat`: `none` is `NULL`, `some a` is the address `a`.
* The heap is a list of cells; address `a` is cell number `a`.  A cell is `some n` while the
  node is allocated and `none` once `free` was called on it.
* `malloc` is taken to succeed and to return the next unused address (the heap grows by one
  cell).
* Every operation returns `Except Fault _`: an access the C standard leaves undefined (a NULL
  dereference, an access to freed memory, an array index outside `0..26`, a token that does
  not fit the read buffer) is reported as a `Fault` instead of being given a made-up meaning.
* A C string is the list of its characters before the terminating NUL; its length fits in
  `int`.  `isalpha` and `tolower` are the C library functions in the "C" locale.
* `unsigned int` is 32 bits wide; the word counter is a natural number kept below `2 ^ 32`.
* The dictionary file is what `fopen`/`fscanf` deliver: `none` when the file cannot be opened,
  `some tokens` (the whitespace-delimited tokens in file order) otherwise.  The size `LENGTH`
  of the read buffer comes from the header `dictionary.h`, which is not among the sources, and
  is a parameter of `load`.
-/

namespace Dictionary

/-- Size of the alphabet, `#define ALPHABET_SIZE 27`. -/
def ALPHABET_SIZE : Nat := 27

/-- Pointer to a node: `none` is `NULL`. -/
abbrev ptr := Option Nat

/-- The `node` struct: the word flag and the 27 child pointers. -/
structure node where
  is_word : Bool
  children : List ptr
deriving DecidableEq, Repr

/-- Undefined behaviours of the C program that the embedding reports. -/
inductive Fault where
  | null_deref
  | use_after_free
  | wild_pointer
  | out_of_bounds
  | buffer_overflow
  | out_of_fuel
deriving DecidableEq, Repr

/-- Heap of nodes: cell `a` is `some n` while allocated, `none` once freed. -/
abbrev Heap := List (Option node)

/-- Width of `unsigned int`. -/
def UINT_BITS : Nat := 32

/-- The global variables `root` and `dictionary_word_count`, together with the heap. -/
structure State where
  mem : Heap
  root : ptr
  dictionary_word_count : Nat
deriving DecidableEq, Repr

/-- State at program start: `root = NULL`, `dictionary_word_count = 0`, nothing allocated. -/
def State.init : State := ⟨[], none, 0⟩

/-- The C library `isalpha` in the "C" locale: `A`..`Z` and `a`..`z`. -/
def isalpha (c : Char) : Bool :=
  (decide (65 ≤ c.toNat) && decide (c.toNat ≤ 90)) || (decide (97 ≤ c.toNat) && decide (c.toNat ≤ 122))

/-- The C library `tolower` in the "C" locale: `A`..`Z` go to `a`..`z`, the rest is unchanged. -/
def tolower (c : Char) : Char :=
  if 65 ≤ c.toNat ∧ c.toNat ≤ 90 then Char.ofNat (c.toNat + 32) else c

/-- The function `char_index`: `c - 'a'` for a letter, 26 otherwise. -/
def char_index (c : Char) : Int :=
  if isalpha c then (c.toNat : Int) - ('a'.toNat : Int) else 26

/-- Reading `*p`. -/
def deref (h : Heap) (p : ptr) : Except Fault node :=
  match p with
  | none => .error .null_deref
  | some a =>
    match h[a]? with
    | none => .error .wild_pointer
    | some none => .error .use_after_free
    | some (some n) => .ok n

/-- Reading `n.children[index]`. -/
def child_at (n : node) (index : Int) : Except Fault ptr :=
  if 0 ≤ index ∧ index < ALPHABET_SIZE then
    match n.children[index.toNat]? with
    | some p => .ok p
    | none => .error .out_of_bounds
  else .error .out_of_bounds

/-- Writing `*p = n`. -/
def store (h : Heap) (p : ptr) (n : node) : Except Fault Heap :=
  match deref h p with
  | .error e => .error e
  | .ok _ =>
    match p with
    | none => .error .null_deref
    | some a => .ok (h.set a (some n))

/-- The function `node_init`: a fresh node, `is_word = false`, every child `NULL`. -/
def node_init (h : Heap) : ptr × Heap :=
  (some h.length, h ++ [some ⟨false, List.replicate 27 none⟩])

/-- The `for` loop of `trie_insert`: returns the heap and the node reached. -/
def trie_insert_loop : Heap → ptr → List Char → Except Fault (Heap × ptr)
  | h, trie, [] => .ok (h, trie)
  | h, trie, c :: cs =>
    let index := char_index c
    match deref h trie with
    | .error e => .error e
    | .ok n =>
      match child_at n index with
      | .error e => .error e
      | .ok (some b) => trie_insert_loop h (some b) cs
      | .ok none =>
        let (p, h1) := node_init h
        match store h1 trie { n with children := n.children.set index.toNat p } with
        | .error e => .error e
        | .ok h2 => trie_insert_loop h2 p cs

/-- The function `trie_insert`. -/
def trie_insert (h : Heap) (root : ptr) (word : List Char) : Except Fault Heap :=
  match trie_insert_loop h root word with
  | .error e => .error e
  | .ok (h1, trie) =>
    match deref h1 trie with
    | .error e => .error e
    | .ok n => store h1 trie { n with is_word := true }

/-- The `for` loop of `check`: `some false` is the early `return false`, `none` means the
loop ran to its end. -/
def check_loop (h : Heap) : ptr → List Char → Except Fault (Option Bool × ptr)
  | trie, [] => .ok (none, trie)
  | trie, c :: cs =>
    let index := char_index (tolower c)
    match deref h trie with
    | .error e => .error e
    | .ok n =>
      match child_at n index with
      | .error e => .error e
      | .ok none => .ok (some false, trie)
      | .ok (some b) => check_loop h (some b) cs

/-- The function `check`. -/
def check (s : State) (word : List Char) : Except Fault Bool :=
  match check_loop s.mem s.root word with
  | .error e => .error e
  | .ok (some b, _) => .ok b
  | .ok (none, none) => .ok false
  | .ok (none, some a) =>
    match deref s.mem (some a) with
    | .error e => .error e
    | .ok n => .ok n.is_word

/-- The `for` loop of `free_node`: the first child among `children[i]`, `i < ALPHABET_SIZE`,
that is not `NULL`. -/
def first_child (n : node) : ptr :=
  (n.children.take ALPHABET_SIZE).findSome? id

/-- The function `free_node`.  The recursion of the C function follows heap pointers, so the
embedding takes fuel; running out of fuel is reported as a fault. -/
def free_node : Nat → Heap → ptr → Except Fault (Bool × Heap)
  | 0, _, _ => .error .out_of_fuel
  | fuel + 1, h, root =>
    match deref h root with
    | .error e => .error e
    | .ok n =>
      match first_child n with
      | some b => free_node fuel h (some b)
      | none =>
        match root with
        | none => .ok (true, h)
        | some a => .ok (true, h.set a none)

/-- The function `unload`.  A chain of more than `mem.length` calls of `free_node` visits
some address twice, and then the C recursion never ends, so this fuel loses no result. -/
def unload (s : State) : Except Fault (Bool × State) :=
  match free_node (s.mem.length + 1) s.mem s.root with
  | .error e => .error e
  | .ok (b, h) => .ok (b, { s with mem := h })

/-- The `while (fscanf(fp, "%s", word) == 1)` loop of `load`.  `LENGTH` is the size of the
buffer `char word[LENGTH]`, a constant of the header `dictionary.h`, which is not among the
sources.  `fscanf` writes the token and a terminating NUL into the buffer without a bound,
so a token of `LENGTH` or more characters overflows it. -/
def load_loop (LENGTH : Nat) : State → List (List Char) → Except Fault State
  | s, [] => .ok s
  | s, word :: rest =>
    if word.length < LENGTH then
      match trie_insert s.mem s.root word with
      | .error e => .error e
      | .ok h =>
        load_loop LENGTH { s with mem := h,
                                  dictionary_word_count :=
                                    (s.dictionary_word_count + 1) % 2 ^ UINT_BITS } rest
    else .error .buffer_overflow

/-- The function `load`; `dictionary` is `none` when `fopen` fails, and `LENGTH` is the size
of the read buffer. -/
def load (LENGTH : Nat) (s : State) (dictionary : Option (List (List Char))) :
    Except Fault (Bool × State) :=
  match dictionary with
  | none =>
    match unload s with
    | .error e => .error e
    | .ok (_, s1) => .ok (false, s1)
  | some words =>
    let s1 : State :=
      match s.root with
      | none => let (p, h) := node_init s.mem; { s with mem := h, root := p }
      | some _ => s
    match load_loop LENGTH s1 words with
    | .error e => .error e
    | .ok s2 => .ok (true, s2)

/-- The function `size`. -/
def size (s : State) : Nat := s.dictionary_word_count

/-! ## Vocabulary of the properties and the invariant of a loaded trie -/

/-- Lowercase letter `a`..`z` or apostrophe: the characters of a dictionary token. -/
def is_lower_or_apostrophe (c : Char) : Bool :=
  (decide (97 ≤ c.toNat) && decide (c.toNat ≤ 122)) || decide (c.toNat = 39)

/-- Letter of either case or apostrophe: the characters of a checked word. -/
def is_letter_or_apostrophe (c : Char) : Bool :=
  isalpha c || decide (c.toNat = 39)

/-- The character `c2` is `c1` or the same letter in the other case. -/
def same_up_to_case (c1 c2 : Char) : Prop :=
  c2 = c1 ∨ (isalpha c1 = true ∧ isalpha c2 = true ∧
    (c2.toNat = c1.toNat + 32 ∨ c1.toNat = c2.toNat + 32))

/-- The word `W2` is `W` with the case of some of its letters changed. -/
def case_variant (W W2 : List Char) : Prop := List.Forall₂ same_up_to_case W W2

/-- The node reached from address `a` along the child indices `p`, if every edge exists. -/
def walk (h : Heap) : Nat → List Nat → Option Nat
  | a, [] => some a
  | a, i :: is =>
    match h[a]? with
    | some (some n) =>
      match n.children[i]? with
      | some (some b) => walk h b is
      | _ => none
    | _ => none

/-- The `is_word` flag stored at address `a`. -/
def flag (h : Heap) (a : Nat) : Bool :=
  match h[a]? with
  | some (some n) => n.is_word
  | _ => false

/-- Follow `p` from `r` and read the flag of the node reached. -/
def lookup (h : Heap) (r : Nat) (p : List Nat) : Bool :=
  match walk h r p with
  | some a => flag h a
  | none => false

/-- Child indices used by `trie_insert` for a word. -/
def insert_path (w : List Char) : List Nat := w.map (fun c => (char_index c).toNat)

/-- Child indices used by `check` for a word. -/
def check_path (w : List Char) : List Nat := w.map (fun c => (char_index (tolower c)).toNat)

/-- Every cell is allocated, has 27 child slots, and every child pointer is the address of a
cell allocated later than its parent. -/
structure Shape (h : Heap) : Prop where
  live : ∀ a, a < h.length → ∃ n, h[a]? = some (some n)
  width : ∀ (a : Nat) (n : node), h[a]? = some (some n) → n.children.length = 27
  edge_lt : ∀ (a : Nat) (n : node) (i b : Nat), h[a]? = some (some n) →
    n.children[i]? = some (some b) →
    a < b ∧ b < h.length

/-- Invariant of the heap of a loaded trie whose root is at `r`: `path a` is the sequence of
child indices that leads from the root to the cell `a`, and `S` is the set of index
sequences that were inserted. -/
structure TrieInv (h : Heap) (r : Nat) (S : Set (List Nat)) (path : Nat → List Nat) : Prop where
  shape : Shape h
  root_lt : r < h.length
  root_path : path r = []
  edge_path : ∀ (a : Nat) (n : node) (i b : Nat), h[a]? = some (some n) →
    n.children[i]? = some (some b) → path b = path a ++ [i]
  word : ∀ (a : Nat) (n : node), h[a]? = some (some n) → (n.is_word = true ↔ path a ∈ S)
  present : ∀ p, p ∈ S → ∃ a, walk h r p = some a
  reach : ∀ a, a < h.length → walk h r (path a) = some a

/-- The heap after `trie_insert` allocated the missing child `i` of the node `n` at `a`. -/
def grow (h : Heap) (a : Nat) (n : node) (i : Nat) : Heap :=
  (h ++ [some (node.mk false (List.replicate 27 none))]).set a
    (some { n with children := n.children.set i (some h.length) })

/-- The characters of a word all have an alphabet index in `0..26`. -/
def in_alphabet (w : List Char) : Prop := ∀ c ∈ w, 0 ≤ char_index c ∧ char_index c < 27

/-- The source of the example scenario: `cat`, `cats`, `cat's`, `dog`. -/
def example_source : List (List Char) :=
  ["cat".toList, "cats".toList, "cat's".toList, "dog".toList]

/-- A character with every non-letter replaced by the apostrophe. -/
def replace_non_letter (c : Char) : Char := if isalpha c then c else Char.ofNat 39

/-- The heap `h2` keeps the heap `h`: every allocated node of `h` is still allocated in `h2`
at the same address, every edge it had is still there, and its `is_word` flag did not go from
true to false. -/
def Preserved (h h2 : Heap) : Prop :=
  ∀ (a : Nat) (n : node), h[a]? = some (some n) →
    ∃ n2 : node, h2[a]? = some (some n2) ∧ (n.is_word = true → n2.is_word = true) ∧
      ∀ (i b : Nat), n.children[i]? = some (some b) → n2.children[i]? = some (some b)

/-- Two heaps hold the same tree below their roots: the same sequences of child indices lead
to a node, and the nodes they lead to carry the same `is_word` flag.  (The addresses of the
nodes are left out: `malloc` hands them out in the order of the insertions.) -/
def same_tree (h1 : Heap) (r1 : Nat) (h2 : Heap) (r2 : Nat) : Prop :=
  ∀ p : List Nat, (walk h1 r1 p).isSome = (walk h2 r2 p).isSome ∧ lookup h1 r1 p = lookup h2 r2 p

end Dictionary

/-!
# Bitmap enlargement (`resize.c`)

The arithmetic of `main` in `src/resize.c` on the two headers and on one scanline.  The header
`bmp.h` is not among the sources: `LONG` is the signed and `DWORD` the unsigned 32-bit field
of the bitmap headers (whose sizes 14 and 40 `main` checks through `bfOffBits` and `biSize`),
`int` is 32 bits wide and `size_t` 64.  A signed operation that overflows is undefined in C
and yields `none` here; unsigned arithmetic wraps around.
-/

namespace Resize

/-- The value of `sizeof(RGBTRIPLE)`: a pixel of the 24-bit bitmaps that `main` accepts (it
rejects `bi.biBitCount != 24`) is three bytes. -/
def sizeof_RGBTRIPLE : Nat := 3

/-- Largest `int`. -/
def INT_MAX : Int := 2147483647

/-- Smallest `int`. -/
def INT_MIN : Int := -2147483648

/-- Number of values of `size_t`, `2 ^ 64`. -/
def SIZE_MODULUS : Nat := 18446744073709551616

/-- Number of values of `DWORD`, `2 ^ 32`. -/
def DWORD_MODULUS : Nat := 4294967296

/-- Conversion of an `int` to `size_t`. -/
def to_size_t (x : Int) : Nat := (x % (SIZE_MODULUS : Int)).toNat

/-- Product of two `int`s; `none` when it overflows. -/
def mul_int (a b : Int) : Option Int :=
  if INT_MIN ≤ a * b ∧ a * b ≤ INT_MAX then some (a * b) else none

/-- The C library `abs`; `none` for `INT_MIN`, and for an argument that is not an `int`. -/
def abs_int (a : Int) : Option Int :=
  if INT_MIN < a ∧ a ≤ INT_MAX then some (Int.natAbs a) else none

/-- One pixel, three bytes. -/
structure RGBTRIPLE where
  rgbtBlue : Nat
  rgbtGreen : Nat
  rgbtRed : Nat
deriving DecidableEq, Repr

/-- The local variables of `main` after the two headers were rewritten. -/
structure Headers where
  inputHeight : Int
  inputWidth : Int
  biWidth : Int
  biHeight : Int
  padding : Int
  biSizeImage : Nat
  bfSize : Nat
deriving DecidableEq, Repr

/-- The statement `int padding = (4 - (bi.biWidth * sizeof(RGBTRIPLE)) % 4) % 4;`, computed
in `size_t`. -/
def scanline_padding (biWidth : Int) : Int :=
  (((4 + SIZE_MODULUS - (to_size_t biWidth * sizeof_RGBTRIPLE % SIZE_MODULUS) % 4) %
    SIZE_MODULUS) % 4 : Nat)

/-- The header rewrite of `main`: the input width and height are saved, `bi.biWidth` and
`bi.biHeight` are multiplied by `n`, the padding is computed from the new width, and the two
size fields are recomputed. -/
def rewrite_headers (biWidth biHeight n : Int) : Option Headers :=
  match abs_int biHeight with
  | none => none
  | some inputHeight =>
    match mul_int biWidth n with
    | none => none
    | some newWidth =>
      match mul_int biHeight n with
      | none => none
      | some newHeight =>
        let padding := scanline_padding newWidth
        match abs_int newHeight with
        | none => none
        | some absHeight =>
          match mul_int absHeight padding with
          | none => none
          | some heightPadding =>
            let biSizeImage :=
              ((to_size_t newWidth * sizeof_RGBTRIPLE % SIZE_MODULUS * to_size_t absHeight %
                SIZE_MODULUS + to_size_t heightPadding) % SIZE_MODULUS) % DWORD_MODULUS
            some { inputHeight := inputHeight, inputWidth := biWidth, biWidth := newWidth,
                   biHeight := newHeight, padding := padding, biSizeImage := biSizeImage,
                   bfSize := (biSizeImage + 54) % DWORD_MODULUS }

/-- The argument `padding` of `fseek(inptr, padding, SEEK_CUR)` after each input scanline. -/
def fseek_offset (hd : Headers) : Int := hd.padding

/-- Padding of a scanline of `width` pixels in a bitmap file: what brings `3 * width` bytes up
to a multiple of four. -/
def file_padding (width : Nat) : Nat := (4 - (3 * width) % 4) % 4

/-- The loop that fills `lineArray`: every pixel of the input scanline `n` times. -/
def fill_line (n : Nat) : List RGBTRIPLE → List RGBTRIPLE
  | [] => []
  | triple :: rest => List.replicate n triple ++ fill_line n rest

/-- The bytes of one pixel as `fwrite` emits them. -/
def triple_bytes (t : RGBTRIPLE) : List Nat := [t.rgbtBlue, t.rgbtGreen, t.rgbtRed]

/-- The pixels `lineArray[0 .. biWidth - 1]` written to the output. -/
def write_pixels : List RGBTRIPLE → List Nat
  | [] => []
  | t :: rest => triple_bytes t ++ write_pixels rest

/-- One output scanline: the first `biWidth` pixels of `lineArray`, then `padding` zero
bytes. -/
def write_scanline (lineArray : List RGBTRIPLE) (biWidth padding : Nat) : List Nat :=
  write_pixels (lineArray.take biWidth) ++ List.replicate padding 0

end Resize

namespace Dictionary

/-! ## Characters -/

theorem toNat_ofNat_small (n : Nat) (h : n < 55296) : (Char.ofNat n).toNat = n := by
  have hv : n.isValidChar := Or.inl h
  simp only [Char.ofNat, hv, dite_true, Char.ofNatAux, Char.toNat, UInt32.toNat]
  simp [BitVec.toNat_ofNatLt]

theorem tolower_toNat (c : Char) :
    (tolower c).toNat = if 65 ≤ c.toNat ∧ c.toNat ≤ 90 then c.toNat + 32 else c.toNat := by
  unfold tolower
  split
  · next h => exact toNat_ofNat_small _ (by omega)
  · rfl

theorem char_index_tolower_range (c : Char) :
    0 ≤ char_index (tolower c) ∧ char_index (tolower c) < 27 := by
  have h := tolower_toNat c
  unfold char_index isalpha
  have ha : ('a'.toNat : Int) = 97 := by decide
  split at h <;> split <;> simp_all <;> omega

theorem char_eq_of_toNat_eq (c d : Char) (h : c.toNat = d.toNat) : c = d := by
  rw [← Char.ofNat_toNat c, ← Char.ofNat_toNat d, h]

theorem char_index_dict_range (c : Char) (hc : is_lower_or_apostrophe c = true) :
    0 ≤ char_index c ∧ char_index c < 27 := by
  unfold is_lower_or_apostrophe at hc
  unfold char_index isalpha
  have ha : ('a'.toNat : Int) = 97 := by decide
  split <;> simp_all
  omega

theorem tolower_dict (c : Char) (hc : is_lower_or_apostrophe c = true) : tolower c = c := by
  unfold is_lower_or_apostrophe at hc
  apply char_eq_of_toNat_eq
  rw [tolower_toNat]
  split
  · simp at hc; omega
  · rfl

theorem char_index_inj_dict (c d : Char) (hc : is_lower_or_apostrophe c = true)
    (hd : is_lower_or_apostrophe d = true) (h : char_index c = char_index d) : c = d := by
  unfold is_lower_or_apostrophe at hc hd
  apply char_eq_of_toNat_eq
  unfold char_index isalpha at h
  have ha : ('a'.toNat : Int) = 97 := by decide
  split at h <;> split at h <;> simp_all <;> omega

theorem tolower_letter (c : Char) (hc : is_letter_or_apostrophe c = true) :
    is_lower_or_apostrophe (tolower c) = true := by
  unfold is_letter_or_apostrophe isalpha at hc
  unfold is_lower_or_apostrophe
  rw [tolower_toNat]
  split <;> simp_all

theorem tolower_same_up_to_case (c1 c2 : Char) (hc : is_lower_or_apostrophe c1 = true)
    (h : same_up_to_case c1 c2) : tolower c2 = c1 := by
  rcases h with h | ⟨h1, h2, h3⟩
  · rw [h]; exact tolower_dict c1 hc
  · apply char_eq_of_toNat_eq
    rw [tolower_toNat]
    unfold is_lower_or_apostrophe at hc
    unfold isalpha at h1 h2
    split <;> simp_all <;> omega

theorem map_tolower_case_variant (W W2 : List Char)
    (hW : ∀ c ∈ W, is_lower_or_apostrophe c = true) (h : case_variant W W2) :
    W2.map tolower = W := by
  induction h with
  | nil => rfl
  | cons hc _ ih =>
    simp only [List.map_cons, List.cons.injEq]
    exact ⟨tolower_same_up_to_case _ _ (hW _ (List.mem_cons_self _ _)) hc,
      ih (fun c hm => hW c (List.mem_cons_of_mem _ hm))⟩

/-! ## Paths in the heap -/

theorem deref_some (h : Heap) (a : Nat) (n : node) (hn : h[a]? = some (some n)) :
    deref h (some a) = .ok n := by
  simp [deref, hn]

theorem child_at_eq (n : node) (index : Int) (p : ptr) (hr : 0 ≤ index ∧ index < 27)
    (hp : n.children[index.toNat]? = some p) : child_at n index = .ok p := by
  have h2 : index < ((ALPHABET_SIZE : Nat) : Int) := by simpa [ALPHABET_SIZE] using hr.2
  simp [child_at, hr.1, h2, hp]

theorem check_eq_lookup (h : Heap) (hs : Shape h) (k : Nat) (W : List Char) :
    ∀ a, a < h.length → check ⟨h, some a, k⟩ W = .ok (lookup h a (check_path W)) := by
  induction W with
  | nil =>
    intro a ha
    obtain ⟨n, hn⟩ := hs.live a ha
    simp [check, check_loop, deref, hn, lookup, walk, flag, check_path]
  | cons c cs ih =>
    intro a ha
    obtain ⟨n, hn⟩ := hs.live a ha
    have hr := char_index_tolower_range c
    have hw := hs.width a n hn
    have hlt : (char_index (tolower c)).toNat < n.children.length := by omega
    have hget : n.children[(char_index (tolower c)).toNat]? =
        some (n.children[(char_index (tolower c)).toNat]) := List.getElem?_eq_getElem hlt
    cases hch : n.children[(char_index (tolower c)).toNat] with
    | none =>
      rw [hch] at hget
      simp [check, check_loop, deref_some h a n hn, child_at_eq n _ _ hr hget, lookup, walk,
        check_path, hn, hget]
    | some b =>
      rw [hch] at hget
      have hb := (hs.edge_lt a n _ b hn hget).2
      have := ih b hb
      simp only [check, check_loop, deref_some h a n hn, child_at_eq n _ _ hr hget, lookup,
        walk, check_path, List.map_cons, hn, hget] at this ⊢
      exact this

/-! ## The invariant of a loaded trie -/

theorem walk_append (h : Heap) (p q : List Nat) :
    ∀ a, walk h a (p ++ q) = (walk h a p).bind (fun b => walk h b q) := by
  induction p with
  | nil => intro a; simp [walk]
  | cons i is ih =>
    intro a
    simp only [List.cons_append, walk]
    split
    · split
      · exact ih _
      · rfl
    · rfl

theorem walk_cons_some (h : Heap) (a i : Nat) (is : List Nat) (c : Nat)
    (hw : walk h a (i :: is) = some c) :
    ∃ n b, h[a]? = some (some n) ∧ n.children[i]? = some (some b) ∧ walk h b is = some c := by
  simp only [walk] at hw
  split at hw
  · next n hn =>
    split at hw
    · next b hb => exact ⟨n, b, hn, hb, hw⟩
    · cases hw
  · cases hw

theorem walk_cons_of (h : Heap) (a i : Nat) (is : List Nat) (n : node) (b : Nat)
    (hn : h[a]? = some (some n)) (hb : n.children[i]? = some (some b)) :
    walk h a (i :: is) = walk h b is := by
  simp [walk, hn, hb]

/-- Walks survive any change of the heap that keeps the existing edges. -/
theorem walk_mono (h h2 : Heap)
    (hle : ∀ (a : Nat) (n : node) (i b : Nat), h[a]? = some (some n) →
      n.children[i]? = some (some b) →
      ∃ n2, h2[a]? = some (some n2) ∧ n2.children[i]? = some (some b))
    (p : List Nat) : ∀ a c, walk h a p = some c → walk h2 a p = some c := by
  induction p with
  | nil => intro a c hw; simpa [walk] using hw
  | cons i is ih =>
    intro a c hw
    obtain ⟨n, b, hn, hb, hw2⟩ := walk_cons_some h a i is c hw
    obtain ⟨n2, hn2, hb2⟩ := hle a n i b hn hb
    rw [walk_cons_of h2 a i is n2 b hn2 hb2]
    exact ih b c hw2

theorem walk_path (h : Heap) (path : Nat → List Nat)
    (he : ∀ (a : Nat) (n : node) (i b : Nat), h[a]? = some (some n) →
      n.children[i]? = some (some b) → path b = path a ++ [i])
    (p : List Nat) : ∀ a c, walk h a p = some c → path c = path a ++ p := by
  induction p with
  | nil => intro a c hw; simp [walk] at hw; simp [hw]
  | cons i is ih =>
    intro a c hw
    obtain ⟨n, b, hn, hb, hw2⟩ := walk_cons_some h a i is c hw
    rw [ih b c hw2, he a n i b hn hb]
    simp

theorem walk_lt (h : Heap) (hs : Shape h) (p : List Nat) :
    ∀ a c, a < h.length → walk h a p = some c → c < h.length := by
  induction p with
  | nil => intro a c ha hw; simp [walk] at hw; omega
  | cons i is ih =>
    intro a c _ hw
    obtain ⟨n, b, hn, hb, hw2⟩ := walk_cons_some h a i is c hw
    exact ih b c (hs.edge_lt a n i b hn hb).2 hw2

theorem TrieInv.walk_root_path {h : Heap} {r : Nat} {S : Set (List Nat)} {path : Nat → List Nat}
    (inv : TrieInv h r S path) (p : List Nat) (c : Nat) (hw : walk h r p = some c) :
    path c = p := by
  have := walk_path h path inv.edge_path p r c hw
  simpa [inv.root_path] using this

/-- The lookup of an index sequence in a well-formed trie says whether it was inserted. -/
theorem TrieInv.lookup_iff {h : Heap} {r : Nat} {S : Set (List Nat)} {path : Nat → List Nat}
    (inv : TrieInv h r S path) (p : List Nat) : lookup h r p = true ↔ p ∈ S := by
  unfold lookup
  constructor
  · intro hl
    split at hl
    · next c hc =>
      have hlt := walk_lt h inv.shape p r c inv.root_lt hc
      obtain ⟨n, hn⟩ := inv.shape.live c hlt
      have hp := inv.walk_root_path p c hc
      have hf : n.is_word = true := by simpa [flag, hn] using hl
      rw [← hp]
      exact (inv.word c n hn).1 hf
    · cases hl
  · intro hp
    obtain ⟨c, hc⟩ := inv.present p hp
    have hlt := walk_lt h inv.shape p r c inv.root_lt hc
    obtain ⟨n, hn⟩ := inv.shape.live c hlt
    have hpc := inv.walk_root_path p c hc
    have hf : n.is_word = true := (inv.word c n hn).2 (by rw [hpc]; exact hp)
    simp [hc, flag, hn, hf]

/-! ## Allocation of a missing child -/

theorem grow_get {α : Type} (h : List (Option α)) (a : Nat) (n2 f : α) (ha : a < h.length) (b : Nat) :
    ((h ++ [some f]).set a (some n2))[b]? =
      if b = a then some (some n2) else if b = h.length then some (some f) else h[b]? := by
  rw [List.getElem?_set]
  by_cases hba : b = a
  · subst hba; simp; omega
  · have : ¬ a = b := fun e => hba e.symm
    simp only [this, hba, if_false]
    by_cases hbl : b = h.length
    · subst hbl; simp
    · simp only [hbl, if_false]
      by_cases hlt : b < h.length
      · rw [List.getElem?_append_left hlt]
      · rw [List.getElem?_eq_none (by simp; omega), List.getElem?_eq_none (by omega)]

theorem set_child_get (l : List (Option Nat)) (i : Nat) (hi : i < l.length) (v : Option Nat) (j : Nat) :
    (l.set i v)[j]? = if j = i then some v else l[j]? := by
  rw [List.getElem?_set]
  by_cases h : i = j
  · subst h; simp [hi]
  · have : ¬ j = i := fun e => h e.symm
    simp [h, this]

theorem replicate_none_get (k j c : Nat) :
    (List.replicate k (none : Option Nat))[j]? ≠ some (some c) := by
  rw [List.getElem?_replicate]
  split <;> simp

theorem lt_of_get_some {α : Type} (l : List α) (a : Nat) (x : α) (h : l[a]? = some x) :
    a < l.length := by
  by_contra hc
  rw [List.getElem?_eq_none (by omega)] at h
  cases h

theorem grow_cell (h : Heap) (a : Nat) (n : node) (i : Nat) (ha : a < h.length) (b : Nat)
    (m : node) (hm : (grow h a n i)[b]? = some (some m)) :
    (b = a ∧ m = { n with children := n.children.set i (some h.length) }) ∨
    (b = h.length ∧ m = (node.mk false (List.replicate 27 none))) ∨
    (b ≠ a ∧ b < h.length ∧ h[b]? = some (some m)) := by
  unfold grow at hm
  rw [grow_get h a _ _ ha b] at hm
  by_cases hba : b = a
  · left
    simp only [hba, if_true, Option.some.injEq] at hm
    exact ⟨hba, hm.symm⟩
  · right
    simp only [hba, if_false] at hm
    by_cases hbl : b = h.length
    · left
      simp only [hbl, if_true, Option.some.injEq] at hm
      exact ⟨hbl, hm.symm⟩
    · right
      simp only [hbl, if_false] at hm
      exact ⟨hba, lt_of_get_some h b _ hm, hm⟩

theorem grow_length (h : Heap) (a : Nat) (n : node) (i : Nat) :
    (grow h a n i).length = h.length + 1 := by
  simp [grow]

theorem grow_get_parent (h : Heap) (a : Nat) (n : node) (i : Nat) (ha : a < h.length) :
    (grow h a n i)[a]? = some (some { n with children := n.children.set i (some h.length) }) := by
  unfold grow
  rw [grow_get h a _ _ ha a]
  simp

theorem grow_get_new (h : Heap) (a : Nat) (n : node) (i : Nat) (ha : a < h.length) :
    (grow h a n i)[h.length]? = some (some (node.mk false (List.replicate 27 none))) := by
  unfold grow
  rw [grow_get h a _ _ ha h.length]
  have : ¬ h.length = a := by omega
  simp only [this, if_false, if_true]

theorem grow_get_old (h : Heap) (a : Nat) (n : node) (i : Nat) (ha : a < h.length) (b : Nat)
    (hba : b ≠ a) (hb : b < h.length) : (grow h a n i)[b]? = h[b]? := by
  unfold grow
  rw [grow_get h a _ _ ha b]
  have : ¬ b = h.length := by omega
  simp [this, hba]

/-- Every edge of the heap is still there after a child was allocated. -/
theorem grow_mono (h : Heap) (a : Nat) (n : node) (i : Nat) (hn : h[a]? = some (some n))
    (hi : i < n.children.length) (hnone : n.children[i]? = some none) :
    ∀ (b : Nat) (m : node) (j c : Nat), h[b]? = some (some m) →
      m.children[j]? = some (some c) →
      ∃ m2, (grow h a n i)[b]? = some (some m2) ∧ m2.children[j]? = some (some c) := by
  intro b m j c hm hc
  have ha := lt_of_get_some h a _ hn
  by_cases hba : b = a
  · subst hba
    rw [hn] at hm
    simp only [Option.some.injEq] at hm
    subst hm
    refine ⟨_, grow_get_parent h b n i ha, ?_⟩
    simp only
    rw [set_child_get _ _ hi]
    have : ¬ j = i := by
      intro e
      rw [e, hnone] at hc
      cases hc
    simpa [this] using hc
  · exact ⟨m, by rw [grow_get_old h a n i ha b hba (lt_of_get_some h b _ hm)]; exact hm, hc⟩

/-- Allocating the missing child `i` of the node at `a` keeps the invariant; the new cell
gets the path of `a` followed by `i`. -/
theorem TrieInv.grow {h : Heap} {r : Nat} {S : Set (List Nat)} {path : Nat → List Nat}
    (inv : TrieInv h r S path) (a : Nat) (n : node) (i : Nat) (hn : h[a]? = some (some n))
    (hnone : n.children[i]? = some none) :
    TrieInv (Dictionary.grow h a n i) r S (Function.update path h.length (path a ++ [i])) := by
  have ha := lt_of_get_some h a _ hn
  have hi : i < n.children.length := lt_of_get_some _ i _ hnone
  have hmono := grow_mono h a n i hn hi hnone
  have hpa : ∀ b, b < h.length → Function.update path h.length (path a ++ [i]) b = path b := by
    intro b hb
    exact Function.update_noteq (by omega) _ _
  have hpn : Function.update path h.length (path a ++ [i]) h.length = path a ++ [i] :=
    Function.update_same _ _ _
  have hnotin : path a ++ [i] ∉ S := by
    intro hin
    obtain ⟨c, hc⟩ := inv.present _ hin
    rw [walk_append, inv.reach a ha] at hc
    simp [walk, hn, hnone] at hc
  refine ⟨⟨?_, ?_, ?_⟩, ?_, ?_, ?_, ?_, ?_, ?_⟩
  · intro b hb
    rw [grow_length] at hb
    by_cases hba : b = a
    · exact ⟨_, by rw [hba]; exact grow_get_parent h a n i ha⟩
    · by_cases hbl : b = h.length
      · exact ⟨_, by rw [hbl]; exact grow_get_new h a n i ha⟩
      · have hb2 : b < h.length := by omega
        obtain ⟨m, hm⟩ := inv.shape.live b hb2
        exact ⟨m, by rw [grow_get_old h a n i ha b hba hb2]; exact hm⟩
  · intro b m hm
    rcases grow_cell h a n i ha b m hm with ⟨_, rfl⟩ | ⟨_, rfl⟩ | ⟨_, _, hold⟩
    · simpa using inv.shape.width a n hn
    · simp
    · exact inv.shape.width b m hold
  · intro b m j c hm hc
    rw [grow_length]
    rcases grow_cell h a n i ha b m hm with ⟨rfl, rfl⟩ | ⟨_, rfl⟩ | ⟨_, _, hold⟩
    · simp only at hc
      rw [set_child_get _ _ hi] at hc
      by_cases hji : j = i
      · simp only [hji, if_true, Option.some.injEq] at hc
        omega
      · simp only [hji, if_false] at hc
        have := inv.shape.edge_lt b n j c hn hc
        omega
    · exact absurd hc (replicate_none_get 27 j c)
    · have := inv.shape.edge_lt b m j c hold hc
      omega
  · rw [grow_length]; have := inv.root_lt; omega
  · rw [hpa r inv.root_lt]; exact inv.root_path
  · intro b m j c hm hc
    rcases grow_cell h a n i ha b m hm with ⟨rfl, rfl⟩ | ⟨_, rfl⟩ | ⟨_, hb, hold⟩
    · simp only at hc
      rw [set_child_get _ _ hi] at hc
      by_cases hji : j = i
      · simp only [hji, if_true, Option.some.injEq] at hc
        rw [← hc, hpn, hpa b ha, hji]
      · simp only [hji, if_false] at hc
        rw [hpa c (inv.shape.edge_lt b n j c hn hc).2, hpa b ha]
        exact inv.edge_path b n j c hn hc
    · exact absurd hc (replicate_none_get 27 j c)
    · rw [hpa c (inv.shape.edge_lt b m j c hold hc).2, hpa b hb]
      exact inv.edge_path b m j c hold hc
  · intro b m hm
    rcases grow_cell h a n i ha b m hm with ⟨rfl, rfl⟩ | ⟨rfl, rfl⟩ | ⟨_, hb, hold⟩
    · rw [hpa b ha]
      exact inv.word b n hn
    · rw [hpn]
      simp [hnotin]
    · rw [hpa b hb]
      exact inv.word b m hold
  · intro p hp
    obtain ⟨c, hc⟩ := inv.present p hp
    exact ⟨c, walk_mono h _ hmono p r c hc⟩
  · intro b hb
    rw [grow_length] at hb
    by_cases hbl : b = h.length
    · rw [hbl, hpn, walk_append, walk_mono h _ hmono _ r a (inv.reach a ha)]
      have hc : (n.children.set i (some h.length))[i]? = some (some h.length) := by
        rw [set_child_get _ _ hi]; simp
      simp [walk, grow_get_parent h a n i ha, hc]
    · have hb2 : b < h.length := by omega
      rw [hpa b hb2]
      exact walk_mono h _ hmono _ r b (inv.reach b hb2)

/-! ## Setting the word flag -/

theorem set_cell (h : Heap) (a : Nat) (x : Option node) (ha : a < h.length) (b : Nat) :
    (h.set a x)[b]? = if b = a then some x else h[b]? := by
  rw [List.getElem?_set]
  by_cases hba : b = a
  · subst hba; simp [ha]
  · have : ¬ a = b := fun e => hba e.symm
    simp [hba, this]

/-- Setting `is_word` of the node at `a` keeps the invariant and adds the path of `a` to the
set of inserted sequences. -/
theorem TrieInv.mark {h : Heap} {r : Nat} {S : Set (List Nat)} {path : Nat → List Nat}
    (inv : TrieInv h r S path) (a : Nat) (n : node) (hn : h[a]? = some (some n)) :
    TrieInv (h.set a (some { n with is_word := true })) r (insert (path a) S) path := by
  have ha := lt_of_get_some h a _ hn
  have hcell : ∀ (b : Nat) (m : node),
      (h.set a (some { n with is_word := true }))[b]? = some (some m) →
      (b = a ∧ m = { n with is_word := true }) ∨ (b ≠ a ∧ h[b]? = some (some m)) := by
    intro b m hm
    rw [set_cell h a _ ha b] at hm
    by_cases hba : b = a
    · left
      simp only [hba, if_true, Option.some.injEq] at hm
      exact ⟨hba, hm.symm⟩
    · right
      simp only [hba, if_false] at hm
      exact ⟨hba, hm⟩
  have hmono : ∀ (b : Nat) (m : node) (j c : Nat), h[b]? = some (some m) →
      m.children[j]? = some (some c) →
      ∃ m2, (h.set a (some { n with is_word := true }))[b]? = some (some m2) ∧
        m2.children[j]? = some (some c) := by
    intro b m j c hm hc
    rw [set_cell h a _ ha b]
    by_cases hba : b = a
    · subst hba
      rw [hn] at hm
      simp only [Option.some.injEq] at hm
      subst hm
      exact ⟨{ n with is_word := true }, by simp, hc⟩
    · exact ⟨m, by simpa [hba] using hm, hc⟩
  refine ⟨⟨?_, ?_, ?_⟩, ?_, ?_, ?_, ?_, ?_, ?_⟩
  · intro b hb
    rw [List.length_set] at hb
    rw [set_cell h a _ ha b]
    by_cases hba : b = a
    · exact ⟨{ n with is_word := true }, by simp [hba]⟩
    · obtain ⟨m, hm⟩ := inv.shape.live b hb
      exact ⟨m, by simpa [hba] using hm⟩
  · intro b m hm
    rcases hcell b m hm with ⟨_, rfl⟩ | ⟨_, hold⟩
    · exact inv.shape.width a n hn
    · exact inv.shape.width b m hold
  · intro b m j c hm hc
    rw [List.length_set]
    rcases hcell b m hm with ⟨rfl, rfl⟩ | ⟨_, hold⟩
    · exact inv.shape.edge_lt b n j c hn hc
    · exact inv.shape.edge_lt b m j c hold hc
  · rw [List.length_set]; exact inv.root_lt
  · exact inv.root_path
  · intro b m j c hm hc
    rcases hcell b m hm with ⟨rfl, rfl⟩ | ⟨_, hold⟩
    · exact inv.edge_path b n j c hn hc
    · exact inv.edge_path b m j c hold hc
  · intro b m hm
    rcases hcell b m hm with ⟨rfl, rfl⟩ | ⟨hba, hold⟩
    · simp
    · have hb := lt_of_get_some h b _ hold
      have hne : path b ≠ path a := by
        intro e
        have h1 := inv.reach b hb
        rw [e, inv.reach a ha] at h1
        simp only [Option.some.injEq] at h1
        exact hba h1.symm
      rw [Set.mem_insert_iff]
      constructor
      · intro hw; exact Or.inr ((inv.word b m hold).1 hw)
      · intro hw
        rcases hw with hw | hw
        · exact absurd hw hne
        · exact (inv.word b m hold).2 hw
  · intro p hp
    rw [Set.mem_insert_iff] at hp
    rcases hp with hp | hp
    · exact ⟨a, by rw [hp]; exact walk_mono h _ hmono _ r a (inv.reach a ha)⟩
    · obtain ⟨c, hc⟩ := inv.present p hp
      exact ⟨c, walk_mono h _ hmono p r c hc⟩
  · intro b hb
    rw [List.length_set] at hb
    exact walk_mono h _ hmono _ r b (inv.reach b hb)

/-! ## Insertion -/

theorem store_some (h : Heap) (a : Nat) (n m : node) (hn : h[a]? = some (some n)) :
    store h (some a) m = .ok (h.set a (some m)) := by
  simp [store, deref_some h a n hn]

theorem in_alphabet_of_dict (w : List Char) (hw : ∀ c ∈ w, is_lower_or_apostrophe c = true) :
    in_alphabet w := fun c hc => char_index_dict_range c (hw c hc)

/-- The loop of `trie_insert`, started at a node of a well-formed trie with a word over the
alphabet, ends at the node whose path is the path of the start followed by the indices of
the word, and keeps the invariant. -/
theorem trie_insert_loop_spec (r : Nat) (S : Set (List Nat)) (w : List Char)
    (hw : in_alphabet w) :
    ∀ (h : Heap) (path : Nat → List Nat) (a : Nat), TrieInv h r S path → a < h.length →
      ∃ h2 a2 path2, trie_insert_loop h (some a) w = .ok (h2, some a2) ∧
        TrieInv h2 r S path2 ∧ a2 < h2.length ∧ path2 a2 = path a ++ insert_path w ∧
        h.length ≤ h2.length := by
  induction w with
  | nil =>
    intro h path a inv ha
    exact ⟨h, a, path, rfl, inv, ha, by simp [insert_path], le_refl _⟩
  | cons c cs ih =>
    intro h path a inv ha
    have hr := hw c (List.mem_cons_self _ _)
    have hcs : in_alphabet cs := fun d hd => hw d (List.mem_cons_of_mem _ hd)
    obtain ⟨n, hn⟩ := inv.shape.live a ha
    have hwid := inv.shape.width a n hn
    have hlt : (char_index c).toNat < n.children.length := by omega
    have hget : n.children[(char_index c).toNat]? = some (n.children[(char_index c).toNat]) :=
      List.getElem?_eq_getElem hlt
    cases hch : n.children[(char_index c).toNat] with
    | none =>
      rw [hch] at hget
      have inv2 := inv.grow a n _ hn hget
      have hlen := grow_length h a n (char_index c).toNat
      obtain ⟨h3, a3, path3, hrun, inv3, ha3, hp3, hle3⟩ :=
        ih hcs (grow h a n (char_index c).toNat) _ h.length inv2 (by omega)
      refine ⟨h3, a3, path3, ?_, inv3, ha3, ?_, by omega⟩
      · have hn1 : (h ++ [some (node.mk false (List.replicate 27 none))])[a]? = some (some n) := by
          rw [List.getElem?_append_left ha]; exact hn
        simp only [trie_insert_loop, deref_some h a n hn, child_at_eq n _ _ hr hget, node_init,
          store_some _ a n _ hn1]
        exact hrun
      · rw [hp3, Function.update_same]
        simp [insert_path]
    | some b =>
      rw [hch] at hget
      have hb := (inv.shape.edge_lt a n _ b hn hget).2
      obtain ⟨h3, a3, path3, hrun, inv3, ha3, hp3, hle3⟩ := ih hcs h path b inv hb
      refine ⟨h3, a3, path3, ?_, inv3, ha3, ?_, hle3⟩
      · simp only [trie_insert_loop, deref_some h a n hn, child_at_eq n _ _ hr hget]
        exact hrun
      · rw [hp3, inv.edge_path a n _ b hn hget]
        simp [insert_path]

/-- The function `trie_insert` on a well-formed trie succeeds, keeps the invariant and adds
the index sequence of the word to the inserted set. -/
theorem trie_insert_spec (r : Nat) (S : Set (List Nat)) (w : List Char) (hw : in_alphabet w)
    (h : Heap) (path : Nat → List Nat) (inv : TrieInv h r S path) :
    ∃ h2 path2, trie_insert h (some r) w = .ok h2 ∧
      TrieInv h2 r (insert (insert_path w) S) path2 ∧ h.length ≤ h2.length := by
  obtain ⟨h1, a1, path1, hrun, inv1, ha1, hp1, hle1⟩ :=
    trie_insert_loop_spec r S w hw h path r inv inv.root_lt
  obtain ⟨n, hn⟩ := inv1.shape.live a1 ha1
  have inv2 := inv1.mark a1 n hn
  rw [hp1, inv.root_path, List.nil_append] at inv2
  refine ⟨_, path1, ?_, inv2, by rw [List.length_set]; exact hle1⟩
  simp only [trie_insert, hrun, deref_some h1 a1 n hn, store_some h1 a1 n _ hn]

/-! ## Loading -/

theorem load_loop_spec (LENGTH r : Nat) (F : List (List Char)) (hF : ∀ t ∈ F, in_alphabet t)
    (hlen : ∀ t ∈ F, t.length < LENGTH) :
    ∀ (s : State) (S : Set (List Nat)) (path : Nat → List Nat), s.root = some r →
      s.dictionary_word_count < 2 ^ UINT_BITS → TrieInv s.mem r S path →
      ∃ s2 path2, load_loop LENGTH s F = .ok s2 ∧ s2.root = some r ∧
        TrieInv s2.mem r (S ∪ {p | p ∈ F.map insert_path}) path2 ∧
        s2.dictionary_word_count = (s.dictionary_word_count + F.length) % 2 ^ UINT_BITS ∧
        s.mem.length ≤ s2.mem.length := by
  induction F with
  | nil =>
    intro s S path hroot hcnt inv
    refine ⟨s, path, rfl, hroot, ?_, ?_, le_refl _⟩
    · simpa using inv
    · rw [List.length_nil, Nat.add_zero, Nat.mod_eq_of_lt hcnt]
  | cons t rest ih =>
    intro s S path hroot hcnt inv
    have ht := hF t (List.mem_cons_self _ _)
    have hrest : ∀ u ∈ rest, in_alphabet u := fun u hu => hF u (List.mem_cons_of_mem _ hu)
    have hlt : t.length < LENGTH := hlen t (List.mem_cons_self _ _)
    have hlrest : ∀ u ∈ rest, u.length < LENGTH :=
      fun u hu => hlen u (List.mem_cons_of_mem _ hu)
    obtain ⟨h2, path2, hins, inv2, hle2⟩ := trie_insert_spec r S t ht s.mem path inv
    obtain ⟨s3, path3, hrun, hroot3, inv3, hcnt3, hle3⟩ :=
      ih hrest hlrest
        { s with mem := h2,
                 dictionary_word_count := (s.dictionary_word_count + 1) % 2 ^ UINT_BITS }
        (insert (insert_path t) S) path2 hroot (Nat.mod_lt _ (by decide)) inv2
    refine ⟨s3, path3, ?_, hroot3, ?_, ?_, le_trans hle2 hle3⟩
    · rw [← hroot] at hins
      simp only [load_loop, hlt, if_true, hins]
      exact hrun
    · have hset : insert (insert_path t) S ∪ {p | p ∈ rest.map insert_path} =
          S ∪ {p | p ∈ (t :: rest).map insert_path} := by
        ext p
        simp only [Set.mem_union, Set.mem_insert_iff, Set.mem_setOf_eq, List.map_cons,
          List.mem_cons]
        tauto
      rw [← hset]
      exact inv3
    · rw [hcnt3]
      simp only [List.length_cons]
      rw [Nat.mod_add_mod]
      congr 1
      omega

/-- The heap right after `load` created the root. -/
theorem TrieInv.root_only :
    TrieInv [some (node.mk false (List.replicate 27 none))] 0 ∅ (fun _ => []) := by
  have hcell : ∀ (a : Nat) (n : node),
      [some (node.mk false (List.replicate 27 none))][a]? = some (some n) →
      a = 0 ∧ n = node.mk false (List.replicate 27 none) := by
    intro a n hn
    cases a with
    | zero => simp at hn; exact ⟨rfl, hn.symm⟩
    | succ k => simp at hn
  refine ⟨⟨?_, ?_, ?_⟩, ?_, ?_, ?_, ?_, ?_, ?_⟩
  · intro a ha
    have : a = 0 := by simpa using ha
    subst this
    exact ⟨_, rfl⟩
  · intro a n hn
    obtain ⟨_, rfl⟩ := hcell a n hn
    simp
  · intro a n i b hn hb
    obtain ⟨_, rfl⟩ := hcell a n hn
    exact absurd hb (replicate_none_get 27 i b)
  · simp
  · rfl
  · intro a n i b hn hb
    obtain ⟨_, rfl⟩ := hcell a n hn
    exact absurd hb (replicate_none_get 27 i b)
  · intro a n hn
    obtain ⟨_, rfl⟩ := hcell a n hn
    simp
  · intro p hp
    exact absurd hp (Set.not_mem_empty p)
  · intro a ha
    have : a = 0 := by simpa using ha
    subst this
    rfl

/-- From the never-loaded state, `load` of a source whose tokens are over the alphabet and
fit the read buffer returns true; the root is the first cell, the trie holds exactly the
index sequences of the tokens, and the counter is the number of tokens modulo `2 ^ 32`. -/
theorem load_init_spec (LENGTH : Nat) (F : List (List Char)) (hF : ∀ t ∈ F, in_alphabet t)
    (hlen : ∀ t ∈ F, t.length < LENGTH) :
    ∃ s path, load LENGTH State.init (some F) = .ok (true, s) ∧ s.root = some 0 ∧
      TrieInv s.mem 0 {p | p ∈ F.map insert_path} path ∧
      s.dictionary_word_count = F.length % 2 ^ UINT_BITS := by
  obtain ⟨s2, path2, hrun, hroot, inv, hcnt, _⟩ :=
    load_loop_spec LENGTH 0 F hF hlen
      ⟨[some (node.mk false (List.replicate 27 none))], some 0, 0⟩ ∅
      (fun _ => []) rfl (by decide) TrieInv.root_only
  refine ⟨s2, path2, ?_, hroot, ?_, ?_⟩
  · simp only [load, State.init, node_init, List.length_nil, List.nil_append, hrun]
  · simpa using inv
  · simpa using hcnt

/-! ## Membership after a load -/

theorem check_path_eq_insert_path (W : List Char) :
    check_path W = insert_path (W.map tolower) := by
  simp [check_path, insert_path, List.map_map, Function.comp_def]

theorem insert_path_inj_dict (u : List Char) (hu : ∀ c ∈ u, is_lower_or_apostrophe c = true) :
    ∀ v : List Char, (∀ c ∈ v, is_lower_or_apostrophe c = true) →
      insert_path u = insert_path v → u = v := by
  induction u with
  | nil =>
    intro v _ h
    cases v with
    | nil => rfl
    | cons d ds => simp [insert_path] at h
  | cons c cs ih =>
    intro v hv h
    cases v with
    | nil => simp [insert_path] at h
    | cons d ds =>
      simp only [insert_path, List.map_cons, List.cons.injEq] at h
      have hc := hu c (List.mem_cons_self _ _)
      have hd := hv d (List.mem_cons_self _ _)
      have hrc := char_index_dict_range c hc
      have hrd := char_index_dict_range d hd
      have hcd : c = d := char_index_inj_dict c d hc hd (by omega)
      have hrest := ih (fun x hx => hu x (List.mem_cons_of_mem _ hx)) ds
        (fun x hx => hv x (List.mem_cons_of_mem _ hx)) h.2
      rw [hcd, hrest]

/-- In a state whose heap is a well-formed trie, `check` returns a result, and the result is
true exactly when the index sequence of the word was inserted. -/
theorem check_loaded (s : State) (r : Nat) (S : Set (List Nat)) (path : Nat → List Nat)
    (hroot : s.root = some r) (inv : TrieInv s.mem r S path) (W : List Char) :
    check s W = .ok (lookup s.mem r (check_path W)) ∧
      (lookup s.mem r (check_path W) = true ↔ check_path W ∈ S) := by
  refine ⟨?_, inv.lookup_iff _⟩
  have := check_eq_lookup s.mem inv.shape s.dictionary_word_count W r inv.root_lt
  rw [← hroot] at this
  exact this

/-! ## Unloading -/

theorem first_child_some (n : node) (b : Nat) (h : first_child n = some b) :
    ∃ i : Nat, n.children[i]? = some (some b) := by
  unfold first_child at h
  obtain ⟨x, hx, hxb⟩ := List.exists_of_findSome?_eq_some h
  simp only [id] at hxb
  subst hxb
  have hmem : some b ∈ n.children := List.mem_of_mem_take hx
  obtain ⟨i, hi, hget⟩ := List.getElem_of_mem hmem
  exact ⟨i, by rw [List.getElem?_eq_getElem hi, hget]⟩

/-- On a well-formed heap `free_node` returns true with enough fuel, and what it frees is
one single cell, a node all of whose children are `NULL`. -/
theorem free_node_spec (h : Heap) (hs : Shape h) :
    ∀ (fuel a : Nat), a < h.length → h.length - a ≤ fuel →
      ∃ b n, a ≤ b ∧ h[b]? = some (some n) ∧ first_child n = none ∧
        free_node fuel h (some a) = .ok (true, h.set b none) := by
  intro fuel
  induction fuel with
  | zero => intro a ha hf; omega
  | succ k ih =>
    intro a ha hf
    obtain ⟨n, hn⟩ := hs.live a ha
    cases hfc : first_child n with
    | none =>
      exact ⟨a, n, le_refl _, hn, hfc, by simp [free_node, deref_some h a n hn, hfc]⟩
    | some b =>
      obtain ⟨i, hi⟩ := first_child_some n b hfc
      have hlt := hs.edge_lt a n i b hn hi
      obtain ⟨b2, n2, hle, hn2, hfc2, hrun⟩ := ih b hlt.2 (by omega)
      exact ⟨b2, n2, by omega, hn2, hfc2, by simp [free_node, deref_some h a n hn, hfc, hrun]⟩

/-- On a loaded state `unload` returns true; it frees one cell and changes neither `root`
nor the word counter. -/
theorem unload_loaded (s : State) (r : Nat) (S : Set (List Nat)) (path : Nat → List Nat)
    (hroot : s.root = some r) (inv : TrieInv s.mem r S path) :
    ∃ b n, s.mem[b]? = some (some n) ∧ first_child n = none ∧
      unload s = .ok (true, { s with mem := s.mem.set b none }) := by
  obtain ⟨b, n, _, hn, hfc, hrun⟩ :=
    free_node_spec s.mem inv.shape (s.mem.length + 1) r inv.root_lt (by omega)
  exact ⟨b, n, hn, hfc, by simp [unload, hroot, hrun]⟩

/-- A round of the loop of `load` that returns: the token fitted the buffer, `trie_insert`
returned, and the rest of the loop ran on the new heap with the counter incremented. -/
theorem load_loop_cons_ok (LENGTH : Nat) (s s2 : State) (t : List Char)
    (rest : List (List Char)) (hrun : load_loop LENGTH s (t :: rest) = .ok s2) :
    t.length < LENGTH ∧ ∃ h, trie_insert s.mem s.root t = .ok h ∧
      load_loop LENGTH { s with mem := h,
                                dictionary_word_count :=
                                  (s.dictionary_word_count + 1) % 2 ^ UINT_BITS } rest =
        .ok s2 := by
  simp only [load_loop] at hrun
  split at hrun
  · next hlt =>
    refine ⟨hlt, ?_⟩
    split at hrun
    · cases hrun
    · next h hins => exact ⟨h, hins, hrun⟩
  · cases hrun

theorem load_loop_fits (LENGTH : Nat) (F : List (List Char)) :
    ∀ (s s2 : State), load_loop LENGTH s F = .ok s2 → ∀ t ∈ F, t.length < LENGTH := by
  induction F with
  | nil => intro _ _ _ t ht; cases ht
  | cons u rest ih =>
    intro s s2 hrun t ht
    obtain ⟨hlt, h, _, hrest⟩ := load_loop_cons_ok LENGTH s s2 u rest hrun
    rcases List.mem_cons.1 ht with rfl | ht
    · exact hlt
    · exact ih _ s2 hrest t ht

/-- What `load` does to the counter and to `root` whenever it returns, whatever the heap. -/
theorem load_loop_count (LENGTH : Nat) (F : List (List Char)) :
    ∀ (s s2 : State), s.dictionary_word_count < 2 ^ UINT_BITS →
      load_loop LENGTH s F = .ok s2 →
      s2.dictionary_word_count = (s.dictionary_word_count + F.length) % 2 ^ UINT_BITS ∧
      s2.root = s.root := by
  induction F with
  | nil =>
    intro s s2 hcnt hrun
    simp only [load_loop, Except.ok.injEq] at hrun
    subst hrun
    exact ⟨by rw [List.length_nil, Nat.add_zero, Nat.mod_eq_of_lt hcnt], rfl⟩
  | cons t rest ih =>
    intro s s2 hcnt hrun
    obtain ⟨_, h, _, hrest⟩ := load_loop_cons_ok LENGTH s s2 t rest hrun
    obtain ⟨h1, h3⟩ := ih _ s2 (Nat.mod_lt _ (by decide)) hrest
    refine ⟨?_, h3⟩
    rw [h1]
    simp only [List.length_cons]
    rw [Nat.mod_add_mod]
    congr 1
    omega

/-! ## A load that returns has read tokens over the alphabet -/

theorem child_at_range (n : node) (index : Int) (p : ptr) (h : child_at n index = .ok p) :
    0 ≤ index ∧ index < 27 ∧ n.children[index.toNat]? = some p := by
  unfold child_at at h
  split at h
  · next hr =>
    have h2 : index < 27 := by simpa [ALPHABET_SIZE] using hr.2
    split at h
    · next q hq =>
      simp only [Except.ok.injEq] at h
      exact ⟨hr.1, h2, by rw [hq, h]⟩
    · cases h
  · cases h

theorem deref_ok (h : Heap) (p : ptr) (n : node) (hd : deref h p = .ok n) :
    ∃ a, p = some a ∧ h[a]? = some (some n) := by
  unfold deref at hd
  split at hd
  · cases hd
  · next a =>
    split at hd
    · cases hd
    · cases hd
    · next m hm =>
      simp only [Except.ok.injEq] at hd
      exact ⟨a, rfl, by rw [hm, hd]⟩

theorem trie_insert_loop_alphabet (w : List Char) :
    ∀ (h : Heap) (p : ptr) (res : Heap × ptr), trie_insert_loop h p w = .ok res →
      in_alphabet w := by
  induction w with
  | nil => intro _ _ _ _ c hc; cases hc
  | cons c cs ih =>
    intro h p res hrun
    simp only [trie_insert_loop] at hrun
    split at hrun
    · cases hrun
    · next n hn =>
      split at hrun
      · cases hrun
      · next b hb =>
        have hr := child_at_range n _ _ hb
        have hcs := ih _ _ _ hrun
        intro d hd
        rcases List.mem_cons.1 hd with rfl | hd
        · exact ⟨hr.1, hr.2.1⟩
        · exact hcs d hd
      · next hb =>
        have hr := child_at_range n _ _ hb
        simp only [node_init] at hrun
        split at hrun
        · cases hrun
        · have hcs := ih _ _ _ hrun
          intro d hd
          rcases List.mem_cons.1 hd with rfl | hd
          · exact ⟨hr.1, hr.2.1⟩
          · exact hcs d hd

theorem trie_insert_alphabet (h : Heap) (p : ptr) (w : List Char) (h1 : Heap)
    (hins : trie_insert h p w = .ok h1) : in_alphabet w := by
  unfold trie_insert at hins
  split at hins
  · cases hins
  · next h2 trie hrun => exact trie_insert_loop_alphabet w h p _ hrun

theorem load_loop_alphabet (LENGTH : Nat) (F : List (List Char)) :
    ∀ (s s2 : State), load_loop LENGTH s F = .ok s2 → ∀ t ∈ F, in_alphabet t := by
  induction F with
  | nil => intro _ _ _ t ht; cases ht
  | cons u rest ih =>
    intro s s2 hrun
    obtain ⟨_, h2, hins, hrest⟩ := load_loop_cons_ok LENGTH s s2 u rest hrun
    intro t ht
    rcases List.mem_cons.1 ht with rfl | ht
    · exact trie_insert_alphabet _ _ _ _ hins
    · exact ih _ s2 hrest t ht

theorem load_alphabet (LENGTH : Nat) (s s2 : State) (F : List (List Char)) (b : Bool)
    (hload : load LENGTH s (some F) = .ok (b, s2)) : ∀ t ∈ F, in_alphabet t := by
  simp only [load] at hload
  split at hload
  · cases hload
  · next s3 hs3 => exact load_loop_alphabet LENGTH F _ s3 hs3

/-- A load that returns has read only tokens that fit the read buffer. -/
theorem load_fits (LENGTH : Nat) (s s2 : State) (F : List (List Char)) (b : Bool)
    (hload : load LENGTH s (some F) = .ok (b, s2)) : ∀ t ∈ F, t.length < LENGTH := by
  simp only [load] at hload
  split at hload
  · cases hload
  · next s3 hs3 => exact load_loop_fits LENGTH F _ s3 hs3

/-- Whenever `load` from the never-loaded state returns, the state it leaves is a well-formed
trie rooted at the first cell that holds the index sequences of the tokens. -/
theorem load_init_inv (LENGTH : Nat) (F : List (List Char)) (s : State) (b : Bool)
    (hload : load LENGTH State.init (some F) = .ok (b, s)) :
    ∃ path, b = true ∧ s.root = some 0 ∧ TrieInv s.mem 0 {p | p ∈ F.map insert_path} path := by
  obtain ⟨s2, path, hload2, hroot, inv, _⟩ :=
    load_init_spec LENGTH F (load_alphabet _ _ _ F b hload) (load_fits _ _ _ F b hload)
  rw [hload] at hload2
  simp only [Except.ok.injEq, Prod.mk.injEq] at hload2
  obtain ⟨hb, hs⟩ := hload2
  subst hs
  exact ⟨path, hb, hroot, inv⟩

/-! ## Properties of `load`, `check`, `size` and `unload` -/

/-- As long as every token fits, the size of the read buffer does not change what the loop of
`load` does. -/
theorem load_loop_length_irrelevant (L1 L2 : Nat) (F : List (List Char)) :
    (∀ t ∈ F, t.length < L1) → (∀ t ∈ F, t.length < L2) →
      ∀ s, load_loop L1 s F = load_loop L2 s F := by
  induction F with
  | nil => intro _ _ s; rfl
  | cons t rest ih =>
    intro h1 h2 s
    have a1 : t.length < L1 := h1 t (List.mem_cons_self _ _)
    have a2 : t.length < L2 := h2 t (List.mem_cons_self _ _)
    have r1 : ∀ u ∈ rest, u.length < L1 := fun u hu => h1 u (List.mem_cons_of_mem _ hu)
    have r2 : ∀ u ∈ rest, u.length < L2 := fun u hu => h2 u (List.mem_cons_of_mem _ hu)
    simp only [load_loop, a1, a2, if_true]
    cases trie_insert s.mem s.root t with
    | error e => rfl
    | ok h => exact ih r1 r2 _

/-- As long as every token fits, the size of the read buffer does not change what `load`
does. -/
theorem load_length_irrelevant (L1 L2 : Nat) (F : List (List Char))
    (h1 : ∀ t ∈ F, t.length < L1) (h2 : ∀ t ∈ F, t.length < L2) (s : State) :
    load L1 s (some F) = load L2 s (some F) := by
  simp only [load, load_loop_length_irrelevant L1 L2 F h1 h2]

/-- C1: for every list of tokens made only of lowercase letters and apostrophes that fit the
read buffer, `load` from the never-loaded state returns true, and afterwards `check` returns
true for every token of the source and for every word obtained from a token by changing the
case of letters. -/
theorem check_true_on_loaded_words (LENGTH : Nat) (F : List (List Char))
    (hF : ∀ t ∈ F, ∀ c ∈ t, is_lower_or_apostrophe c = true)
    (hlen : ∀ t ∈ F, t.length < LENGTH) :
    ∃ s, load LENGTH State.init (some F) = .ok (true, s) ∧
      ∀ W ∈ F, ∀ W2, case_variant W W2 → check s W2 = .ok true := by
  obtain ⟨s, path, hload, hroot, inv, _⟩ :=
    load_init_spec LENGTH F (fun t ht => in_alphabet_of_dict t (hF t ht)) hlen
  refine ⟨s, hload, ?_⟩
  intro W hW W2 hv
  obtain ⟨hc, hiff⟩ := check_loaded s 0 _ path hroot inv W2
  have hin : check_path W2 ∈ {p | p ∈ F.map insert_path} := by
    rw [check_path_eq_insert_path, map_tolower_case_variant W W2 (hF W hW) hv]
    exact List.mem_map_of_mem _ hW
  rw [hc, hiff.2 hin]

theorem check_true_on_loaded_words_witness :
    (∀ t ∈ example_source, ∀ c ∈ t, is_lower_or_apostrophe c = true) ∧
    (∀ t ∈ example_source, t.length < 45) ∧
    ∃ s, load 45 State.init (some example_source) = .ok (true, s) ∧
      ∀ W ∈ example_source, ∀ W2, case_variant W W2 → check s W2 = .ok true :=
  ⟨by decide, by decide, check_true_on_loaded_words 45 example_source (by decide) (by decide)⟩

/-- C2: for every list of tokens made only of lowercase letters and apostrophes that fit the
read buffer, after `load` from the never-loaded state `check` returns false for every word
of letters and apostrophes whose lowercase form is not one of the tokens. -/
theorem check_false_on_absent_words (LENGTH : Nat) (F : List (List Char))
    (hF : ∀ t ∈ F, ∀ c ∈ t, is_lower_or_apostrophe c = true)
    (hlen : ∀ t ∈ F, t.length < LENGTH) :
    ∃ s, load LENGTH State.init (some F) = .ok (true, s) ∧
      ∀ W : List Char, (∀ c ∈ W, is_letter_or_apostrophe c = true) → W.map tolower ∉ F →
        check s W = .ok false := by
  obtain ⟨s, path, hload, hroot, inv, _⟩ :=
    load_init_spec LENGTH F (fun t ht => in_alphabet_of_dict t (hF t ht)) hlen
  refine ⟨s, hload, ?_⟩
  intro W hW hnot
  obtain ⟨hc, hiff⟩ := check_loaded s 0 _ path hroot inv W
  have hout : ¬ check_path W ∈ {p | p ∈ F.map insert_path} := by
    intro hin
    rw [check_path_eq_insert_path] at hin
    obtain ⟨t, ht, heq⟩ := List.mem_map.1 hin
    have hlow : ∀ c ∈ W.map tolower, is_lower_or_apostrophe c = true := by
      intro c hc
      obtain ⟨d, hd, rfl⟩ := List.mem_map.1 hc
      exact tolower_letter d (hW d hd)
    have := insert_path_inj_dict t (hF t ht) (W.map tolower) hlow heq
    exact hnot (this ▸ ht)
  rw [hc]
  cases hl : lookup s.mem 0 (check_path W) with
  | false => rfl
  | true => exact absurd (hiff.1 hl) hout

theorem check_false_on_absent_words_witness :
    (∀ t ∈ example_source, ∀ c ∈ t, is_lower_or_apostrophe c = true) ∧
    (∀ t ∈ example_source, t.length < 45) ∧
    ∃ s, load 45 State.init (some example_source) = .ok (true, s) ∧
      ∀ W : List Char, (∀ c ∈ W, is_letter_or_apostrophe c = true) →
        W.map tolower ∉ example_source → check s W = .ok false :=
  ⟨by decide, by decide, check_false_on_absent_words 45 example_source (by decide) (by decide)⟩

theorem map_tolower_dict (W : List Char) (hW : ∀ c ∈ W, is_lower_or_apostrophe c = true) :
    W.map tolower = W := by
  induction W with
  | nil => rfl
  | cons c cs ih =>
    simp only [List.map_cons]
    rw [tolower_dict c (hW c (List.mem_cons_self _ _)),
      ih (fun d hd => hW d (List.mem_cons_of_mem _ hd))]

/-- C3 as stated fails: with a read buffer of 45 characters the source `a5b`, `a'` loads;
`a5` is a strict prefix of the token `a5b` and is not a token, yet `check` finds it, because
`5` and the apostrophe have the same index 26 and `a'` is a token. -/
theorem check_true_on_prefix_sharing_index :
    ∃ s, load 45 State.init (some ["a5b".toList, "a'".toList]) = .ok (true, s) ∧
      "a5".toList <+: "a5b".toList ∧ "a5".toList ≠ "a5b".toList ∧
      "a5".toList ∉ ["a5b".toList, "a'".toList] ∧ check s "a5".toList = .ok true :=
  ⟨_, rfl, ⟨"b".toList, rfl⟩, by decide, by decide, rfl⟩

/-- C3 (as amended): for every loaded list of tokens made only of lowercase letters and
apostrophes (that fit the read buffer) and every strict prefix `P` of a loaded token that is
not itself a loaded token, the whole path of `P` exists in the trie, `check P` returns the
`is_word` flag of the node that path reaches, and that flag is false. -/
theorem check_false_on_strict_prefix (LENGTH : Nat) (F : List (List Char))
    (hF : ∀ t ∈ F, ∀ c ∈ t, is_lower_or_apostrophe c = true)
    (hlen : ∀ t ∈ F, t.length < LENGTH) :
    ∃ s r, load LENGTH State.init (some F) = .ok (true, s) ∧ s.root = some r ∧
      ∀ t ∈ F, ∀ P : List Char, P <+: t → P ≠ t → P ∉ F →
        ∃ a n, walk s.mem r (check_path P) = some a ∧ s.mem[a]? = some (some n) ∧
          check s P = .ok n.is_word ∧ n.is_word = false := by
  obtain ⟨s, path, hload, hroot, inv, _⟩ :=
    load_init_spec LENGTH F (fun t ht => in_alphabet_of_dict t (hF t ht)) hlen
  refine ⟨s, 0, hload, hroot, ?_⟩
  intro t ht P hpre _ hnot
  obtain ⟨suf, hsuf⟩ := hpre
  have hP : ∀ c ∈ P, is_lower_or_apostrophe c = true := by
    intro c hc
    exact hF t ht c (by rw [← hsuf]; exact List.mem_append_left _ hc)
  have hcp : check_path P = insert_path P := by
    rw [check_path_eq_insert_path, map_tolower_dict P hP]
  obtain ⟨c, hc⟩ := inv.present (insert_path t) (List.mem_map_of_mem _ ht)
  have hsplit : insert_path t = insert_path P ++ insert_path suf := by
    rw [← hsuf]; simp [insert_path]
  rw [hsplit, walk_append] at hc
  cases hwp : walk s.mem 0 (insert_path P) with
  | none => rw [hwp] at hc; cases hc
  | some a =>
    have ha := walk_lt s.mem inv.shape _ 0 a inv.root_lt hwp
    obtain ⟨n, hn⟩ := inv.shape.live a ha
    have hpath := inv.walk_root_path _ a hwp
    have hflag : n.is_word = false := by
      cases hw : n.is_word with
      | false => rfl
      | true =>
        have hin := (inv.word a n hn).1 hw
        rw [hpath] at hin
        obtain ⟨u, hu, heq⟩ := List.mem_map.1 hin
        have := insert_path_inj_dict u (hF u hu) P hP heq
        exact absurd (this ▸ hu) hnot
    refine ⟨a, n, by rw [hcp]; exact hwp, hn, ?_, hflag⟩
    rw [(check_loaded s 0 _ path hroot inv P).1, hcp]
    simp [lookup, hwp, flag, hn]

theorem check_false_on_strict_prefix_witness :
    (∀ t ∈ example_source, ∀ c ∈ t, is_lower_or_apostrophe c = true) ∧
    (∀ t ∈ example_source, t.length < 45) ∧
    ∃ s r, load 45 State.init (some example_source) = .ok (true, s) ∧ s.root = some r ∧
      ∀ t ∈ example_source, ∀ P : List Char, P <+: t → P ≠ t → P ∉ example_source →
        ∃ a n, walk s.mem r (check_path P) = some a ∧ s.mem[a]? = some (some n) ∧
          check s P = .ok n.is_word ∧ n.is_word = false :=
  ⟨by decide, by decide,
    check_false_on_strict_prefix 45 example_source (by decide) (by decide)⟩

/-- The example scenario of the specification, evaluated on the code with a read buffer of
45 characters. -/
theorem example_scenario :
    ∃ s, load 45 State.init (some example_source) = .ok (true, s) ∧ size s = 4 ∧
      check s "cat".toList = .ok true ∧ check s "ca".toList = .ok false ∧
      check s "cats".toList = .ok true ∧ check s "cat's".toList = .ok true ∧
      check s "catsup".toList = .ok false ∧ check s "Dog".toList = .ok true :=
  ⟨_, rfl, rfl, rfl, rfl, rfl, rfl, rfl, rfl⟩

/-- A token that does not fit the read buffer: with a buffer of 45 characters, loading a
token of 45 letters overflows the buffer. -/
theorem load_long_token_faults :
    load 45 State.init (some [List.replicate 45 (Char.ofNat 97)]) = .error .buffer_overflow :=
  rfl

theorem load_count (LENGTH : Nat) (s s2 : State) (F : List (List Char)) (b : Bool)
    (hcnt : s.dictionary_word_count < 2 ^ UINT_BITS)
    (hrun : load LENGTH s (some F) = .ok (b, s2)) :
    size s2 = (size s + F.length) % 2 ^ UINT_BITS := by
  simp only [load] at hrun
  split at hrun
  · cases hrun
  · next s3 hs3 =>
    simp only [Except.ok.injEq, Prod.mk.injEq] at hrun
    rw [← hrun.2]
    cases hr : s.root with
    | none =>
      rw [hr] at hs3
      exact (load_loop_count LENGTH F _ s3 (by exact hcnt) hs3).1
    | some a =>
      rw [hr] at hs3
      exact (load_loop_count LENGTH F _ s3 (by exact hcnt) hs3).1

/-- C4 (as amended): after a successful load from the never-loaded state `size` is the number
of tokens read from the source modulo `2 ^ 32`, every occurrence of a duplicate and every
prefix of another token counted; it is the exact number when fewer than `2 ^ 32` tokens were
read. -/
theorem size_after_load (LENGTH : Nat) (F : List (List Char)) (s : State)
    (hload : load LENGTH State.init (some F) = .ok (true, s)) :
    size s = F.length % 2 ^ UINT_BITS ∧ (F.length < 2 ^ UINT_BITS → size s = F.length) := by
  have h := load_count LENGTH State.init s F true (by decide) hload
  have h0 : size State.init = 0 := rfl
  rw [h0, Nat.zero_add] at h
  exact ⟨h, fun hlt => by rw [h, Nat.mod_eq_of_lt hlt]⟩

theorem size_after_load_witness :
    ∃ s, load 45 State.init (some ["cat".toList, "cat".toList, "ca".toList]) = .ok (true, s) ∧
      size s = 3 % 2 ^ UINT_BITS ∧ (3 < 2 ^ UINT_BITS → size s = 3) :=
  ⟨_, rfl, size_after_load 45 ["cat".toList, "cat".toList, "ca".toList] _ rfl⟩

/-- C4 as stated fails: with a read buffer of 45 characters a source of `2 ^ 32` tokens `a`
loads successfully and `size` then returns 0, because the `unsigned int` counter wrapped
around. -/
theorem size_wraps_around :
    ∃ s, load 45 State.init (some (List.replicate (2 ^ 32) "a".toList)) = .ok (true, s) ∧
      size s = 0 ∧ (List.replicate (2 ^ 32) "a".toList).length = 2 ^ 32 := by
  have hF : ∀ t ∈ List.replicate (2 ^ 32) "a".toList, in_alphabet t := by
    intro t ht
    rw [List.eq_of_mem_replicate ht]
    exact in_alphabet_of_dict _ (by decide)
  have hlen : ∀ t ∈ List.replicate (2 ^ 32) "a".toList, t.length < 45 := by
    intro t ht
    rw [List.eq_of_mem_replicate ht]
    decide
  obtain ⟨s, _, hload, _, _, hcnt⟩ := load_init_spec 45 _ hF hlen
  refine ⟨s, hload, ?_, List.length_replicate _ _⟩
  rw [List.length_replicate] at hcnt
  exact hcnt.trans (Nat.mod_self _)

/-- C5 as stated fails: with a read buffer of 45 characters, after loading `a` and `b` and
unloading, `size` still returns 2 and `check` still finds `b`. -/
theorem unload_keeps_words :
    ∃ s1 s2, load 45 State.init (some ["a".toList, "b".toList]) = .ok (true, s1) ∧
      unload s1 = .ok (true, s2) ∧ size s2 = 2 ∧ check s2 "b".toList = .ok true :=
  ⟨_, _, rfl, rfl, rfl, rfl⟩

/-- C5 (as amended): after every load from the never-loaded state that returns true,
`unload` returns true, and afterwards `size` still returns what it returned before the
unload, the number of tokens modulo `2 ^ 32`, and `root` still holds the address of the root
node: `unload` resets neither. -/
theorem unload_resets_nothing (LENGTH : Nat) (F : List (List Char)) (s1 : State)
    (hload : load LENGTH State.init (some F) = .ok (true, s1)) :
    ∃ s2, unload s1 = .ok (true, s2) ∧
      size s2 = size s1 ∧ size s2 = F.length % 2 ^ UINT_BITS ∧
      s2.root = s1.root ∧ s2.root ≠ none := by
  obtain ⟨path, _, hroot, inv⟩ := load_init_inv LENGTH F s1 true hload
  obtain ⟨b, n, _, _, hun⟩ := unload_loaded s1 0 _ path hroot inv
  have hcnt := load_count LENGTH State.init s1 F true (by decide) hload
  have h0 : size State.init = 0 := rfl
  rw [h0, Nat.zero_add] at hcnt
  exact ⟨_, hun, rfl, hcnt, rfl, by simp [hroot]⟩

theorem unload_resets_nothing_witness :
    ∃ s1, load 45 State.init (some example_source) = .ok (true, s1) ∧
    ∃ s2, unload s1 = .ok (true, s2) ∧ size s2 = size s1 ∧
      size s2 = example_source.length % 2 ^ UINT_BITS ∧ s2.root = s1.root ∧ s2.root ≠ none :=
  ⟨_, rfl, unload_resets_nothing 45 example_source _ rfl⟩

/-- C6 on the code: for every read buffer of at least two characters, after loading `a` and
`b` the root (address 0) and its two children (addresses 1 and 2) are reachable, and `unload`
frees the cell at address 1 only. -/
theorem free_node_frees_one_node :
    ∀ LENGTH : Nat,
    ∃ s1 s2, load (LENGTH + 2) State.init (some ["a".toList, "b".toList]) = .ok (true, s1) ∧
      unload s1 = .ok (true, s2) ∧
      walk s1.mem 0 [] = some 0 ∧ walk s1.mem 0 [0] = some 1 ∧ walk s1.mem 0 [1] = some 2 ∧
      s1.mem.map Option.isSome = [true, true, true] ∧
      s2.mem.map Option.isSome = [true, false, true] := by
  intro LENGTH
  have hfit : ∀ t ∈ ["a".toList, "b".toList], t.length < LENGTH + 2 := by
    intro t ht
    have h1 : t.length = 1 := by
      revert t
      decide
    omega
  rw [load_length_irrelevant (LENGTH + 2) 45 _ hfit (by decide)]
  exact ⟨_, _, rfl, rfl, rfl, rfl, rfl, rfl, rfl⟩

/-- C8 on the code: when the source cannot be opened in the never-loaded state, `load` calls
`unload`, and `free_node` reads `children[0]` of the `NULL` root, whatever the size of the
read buffer. -/
theorem load_unopenable_faults (LENGTH : Nat) :
    load LENGTH State.init none = .error .null_deref := rfl

/-- C9 on the code: `unload` on the never-loaded state makes `free_node` read `children[0]`
of the `NULL` root. -/
theorem unload_never_loaded_faults : unload State.init = .error .null_deref := rfl

/-- C10 on the code: in the never-loaded state `size` returns 0 and `check` of the empty word
returns false, but `check` of any non-empty word reads a child of the `NULL` root. -/
theorem check_never_loaded :
    size State.init = 0 ∧ check State.init [] = .ok false ∧
      ∀ (c : Char) (cs : List Char), check State.init (c :: cs) = .error .null_deref :=
  ⟨rfl, rfl, fun _ _ => rfl⟩

/-! ## Uppercase tokens and repeated loads -/

theorem check_path_mem_iff (F : List (List Char))
    (hF : ∀ t ∈ F, ∀ c ∈ t, is_lower_or_apostrophe c = true) (W : List Char)
    (hW : ∀ c ∈ W, is_letter_or_apostrophe c = true) :
    check_path W ∈ F.map insert_path ↔ W.map tolower ∈ F := by
  rw [check_path_eq_insert_path]
  constructor
  · intro hin
    obtain ⟨t, ht, heq⟩ := List.mem_map.1 hin
    have hlow : ∀ c ∈ W.map tolower, is_lower_or_apostrophe c = true := by
      intro c hc
      obtain ⟨d, hd, rfl⟩ := List.mem_map.1 hc
      exact tolower_letter d (hW d hd)
    have := insert_path_inj_dict t (hF t ht) (W.map tolower) hlow heq
    exact this ▸ ht
  · intro hin
    exact List.mem_map_of_mem _ hin

/-- C11 as stated fails: the index of `H` is `-25`, and with a read buffer of 45 characters
loading a source that holds the token `Hello` indexes the child array of the root out of
bounds. -/
theorem load_uppercase_token_faults :
    char_index (Char.ofNat 72) = -25 ∧
      load 45 State.init (some ["Hello".toList]) = .error .out_of_bounds :=
  ⟨rfl, rfl⟩

/-- C11 (as amended): if the lowercase token `hello` is in a loaded source of lowercase letters
and apostrophes whose tokens fit the read buffer, then `check` returns true for `hello`,
`HELLO` and `HeLLo`, and every alphabet index used while inserting `hello` is within
`0..26`. -/
theorem check_folds_case_of_query (LENGTH : Nat) (F : List (List Char))
    (hF : ∀ t ∈ F, ∀ c ∈ t, is_lower_or_apostrophe c = true)
    (hlen : ∀ t ∈ F, t.length < LENGTH) (hin : "hello".toList ∈ F) :
    ∃ s, load LENGTH State.init (some F) = .ok (true, s) ∧
      check s "hello".toList = .ok true ∧ check s "HELLO".toList = .ok true ∧
      check s "HeLLo".toList = .ok true ∧
      ∀ c ∈ "hello".toList, 0 ≤ char_index c ∧ char_index c ≤ 26 := by
  obtain ⟨s, path, hload, hroot, inv, _⟩ :=
    load_init_spec LENGTH F (fun t ht => in_alphabet_of_dict t (hF t ht)) hlen
  have hmem : insert_path "hello".toList ∈ {p | p ∈ F.map insert_path} :=
    List.mem_map_of_mem _ hin
  have h1 := check_loaded s 0 _ path hroot inv "hello".toList
  have h2 := check_loaded s 0 _ path hroot inv "HELLO".toList
  have h3 := check_loaded s 0 _ path hroot inv "HeLLo".toList
  have e1 : check_path "hello".toList = insert_path "hello".toList := by decide
  have e2 : check_path "HELLO".toList = insert_path "hello".toList := by decide
  have e3 : check_path "HeLLo".toList = insert_path "hello".toList := by decide
  refine ⟨s, hload, ?_, ?_, ?_, by decide⟩
  · rw [h1.1, h1.2.2 (e1 ▸ hmem)]
  · rw [h2.1, h2.2.2 (e2 ▸ hmem)]
  · rw [h3.1, h3.2.2 (e3 ▸ hmem)]

theorem check_folds_case_of_query_witness :
    (∀ t ∈ ["hello".toList, "world".toList], ∀ c ∈ t, is_lower_or_apostrophe c = true) ∧
    (∀ t ∈ ["hello".toList, "world".toList], t.length < 45) ∧
    "hello".toList ∈ ["hello".toList, "world".toList] ∧
    ∃ s, load 45 State.init (some ["hello".toList, "world".toList]) = .ok (true, s) ∧
      check s "hello".toList = .ok true ∧ check s "HELLO".toList = .ok true ∧
      check s "HeLLo".toList = .ok true ∧
      ∀ c ∈ "hello".toList, 0 ≤ char_index c ∧ char_index c ≤ 26 :=
  ⟨by decide, by decide, by decide,
    check_folds_case_of_query 45 ["hello".toList, "world".toList] (by decide) (by decide)
      (by decide)⟩

/-- C12: for every two token lists `F1` and `F2` of lowercase letters and apostrophes whose
tokens fit the read buffer, `load(F1); load(F2)` returns true twice, and afterwards `check`
of a word of letters and apostrophes is true exactly when its lowercase form is a token of
`F1` or of `F2`. -/
theorem second_load_merges (LENGTH : Nat) (F1 F2 : List (List Char))
    (hF1 : ∀ t ∈ F1, ∀ c ∈ t, is_lower_or_apostrophe c = true)
    (hF2 : ∀ t ∈ F2, ∀ c ∈ t, is_lower_or_apostrophe c = true)
    (hlen1 : ∀ t ∈ F1, t.length < LENGTH) (hlen2 : ∀ t ∈ F2, t.length < LENGTH) :
    ∃ s1 s2, load LENGTH State.init (some F1) = .ok (true, s1) ∧
      load LENGTH s1 (some F2) = .ok (true, s2) ∧
      ∀ W : List Char, (∀ c ∈ W, is_letter_or_apostrophe c = true) →
        check s2 W = .ok (decide (W.map tolower ∈ F1 ∨ W.map tolower ∈ F2)) := by
  obtain ⟨s1, path1, hload1, hroot1, inv1, hcnt1⟩ :=
    load_init_spec LENGTH F1 (fun t ht => in_alphabet_of_dict t (hF1 t ht)) hlen1
  have hlt : s1.dictionary_word_count < 2 ^ UINT_BITS := by
    rw [hcnt1]; exact Nat.mod_lt _ (by decide)
  obtain ⟨s2, path2, hrun, hroot2, inv2, _, _⟩ :=
    load_loop_spec LENGTH 0 F2 (fun t ht => in_alphabet_of_dict t (hF2 t ht)) hlen2 s1 _ path1
      hroot1 hlt inv1
  refine ⟨s1, s2, hload1, ?_, ?_⟩
  · simp only [load, hroot1, hrun]
  · intro W hW
    obtain ⟨hc, hiff⟩ := check_loaded s2 0 _ path2 hroot2 inv2 W
    rw [hc]
    congr 1
    rw [Bool.eq_iff_iff, hiff, decide_eq_true_iff]
    simp only [Set.mem_union, Set.mem_setOf_eq]
    rw [check_path_mem_iff F1 hF1 W hW, check_path_mem_iff F2 hF2 W hW]

theorem second_load_merges_witness :
    (∀ t ∈ ["cat".toList], ∀ c ∈ t, is_lower_or_apostrophe c = true) ∧
    (∀ t ∈ ["dog".toList], ∀ c ∈ t, is_lower_or_apostrophe c = true) ∧
    (∀ t ∈ ["cat".toList], t.length < 45) ∧ (∀ t ∈ ["dog".toList], t.length < 45) ∧
    ∃ s1 s2, load 45 State.init (some ["cat".toList]) = .ok (true, s1) ∧
      load 45 s1 (some ["dog".toList]) = .ok (true, s2) ∧
      ∀ W : List Char, (∀ c ∈ W, is_letter_or_apostrophe c = true) →
        check s2 W =
          .ok (decide (W.map tolower ∈ ["cat".toList] ∨ W.map tolower ∈ ["dog".toList])) :=
  ⟨by decide, by decide, by decide, by decide,
    second_load_merges 45 ["cat".toList] ["dog".toList] (by decide) (by decide) (by decide)
      (by decide)⟩

/-! ## The root flag, termination of `unload`, characters outside the alphabet -/

theorem insert_path_eq_nil (t : List Char) : insert_path t = [] ↔ t = [] := by
  simp [insert_path]

/-- C15: after a load from the never-loaded state `check` of the empty word returns the
`is_word` flag of the root, that flag is set exactly when the empty word is among the tokens,
and so for every list of non-empty tokens the root has `is_word = false` and `check` of the
empty word returns false. -/
theorem root_not_terminal (LENGTH : Nat) (F : List (List Char)) (s : State)
    (hload : load LENGTH State.init (some F) = .ok (true, s)) :
    ∃ r n, s.root = some r ∧ s.mem[r]? = some (some n) ∧ check s [] = .ok n.is_word ∧
      (n.is_word = true ↔ [] ∈ F) ∧
      ((∀ t ∈ F, t ≠ []) → n.is_word = false ∧ check s [] = .ok false) := by
  obtain ⟨path, _, hroot, inv⟩ := load_init_inv LENGTH F s true hload
  obtain ⟨n, hn⟩ := inv.shape.live 0 inv.root_lt
  have hchk : check s [] = .ok n.is_word := by
    rw [(check_loaded s 0 _ path hroot inv []).1]
    simp [check_path, lookup, walk, flag, hn]
  have hiff : n.is_word = true ↔ [] ∈ F := by
    rw [inv.word 0 n hn, inv.root_path]
    simp only [Set.mem_setOf_eq, List.mem_map]
    constructor
    · rintro ⟨t, ht, he⟩
      rw [(insert_path_eq_nil t).1 he] at ht
      exact ht
    · intro h
      exact ⟨[], h, rfl⟩
  refine ⟨0, n, hroot, hn, hchk, hiff, ?_⟩
  intro hne
  have hf : n.is_word = false := by
    cases hw : n.is_word with
    | false => rfl
    | true => exact absurd rfl (hne [] (hiff.1 hw))
  exact ⟨hf, by rw [hchk, hf]⟩

theorem root_not_terminal_witness :
    ∃ s, load 45 State.init (some example_source) = .ok (true, s) ∧
    ∃ r n, s.root = some r ∧ s.mem[r]? = some (some n) ∧ check s [] = .ok n.is_word ∧
      (n.is_word = true ↔ [] ∈ example_source) ∧
      ((∀ t ∈ example_source, t ≠ []) → n.is_word = false ∧ check s [] = .ok false) :=
  ⟨_, rfl, root_not_terminal 45 example_source _ rfl⟩

theorem free_node_fuel_mono (h : Heap) :
    ∀ (k : Nat) (p : ptr) (x : Bool × Heap), free_node k h p = .ok x →
      ∀ j, free_node (k + j) h p = .ok x := by
  intro k
  induction k with
  | zero => intro p x hk; simp [free_node] at hk
  | succ k ih =>
    intro p x hk j
    have e : k + 1 + j = (k + j) + 1 := by omega
    rw [e]
    simp only [free_node] at hk ⊢
    split at hk
    · cases hk
    · next n hn =>
      split at hk
      · next b hb =>
        exact ih _ x hk j
      · next hb =>
        exact hk

/-- C16: for every tree built by a load from the never-loaded state, `free_node` started at
the root returns true for every amount of fuel that is at least the number of cells, always
with the same heap, and `unload` returns true. -/
theorem unload_returns_true (LENGTH : Nat) (F : List (List Char)) (s : State)
    (hload : load LENGTH State.init (some F) = .ok (true, s)) :
    ∃ h2, unload s = .ok (true, { s with mem := h2 }) ∧
      ∀ fuel, s.mem.length ≤ fuel → free_node fuel s.mem s.root = .ok (true, h2) := by
  obtain ⟨path, _, hroot, inv⟩ := load_init_inv LENGTH F s true hload
  obtain ⟨b, n, _, _, _, hrun⟩ :=
    free_node_spec s.mem inv.shape s.mem.length 0 inv.root_lt (by omega)
  rw [← hroot] at hrun
  refine ⟨s.mem.set b none, ?_, ?_⟩
  · have h1 := free_node_fuel_mono s.mem _ _ _ hrun 1
    simp only [unload, h1]
  · intro fuel hf
    have h1 := free_node_fuel_mono s.mem _ _ _ hrun (fuel - s.mem.length)
    have e : s.mem.length + (fuel - s.mem.length) = fuel := by omega
    rw [e] at h1
    exact h1

theorem unload_returns_true_witness :
    ∃ s, load 45 State.init (some example_source) = .ok (true, s) ∧
    ∃ h2, unload s = .ok (true, { s with mem := h2 }) ∧
      ∀ fuel, s.mem.length ≤ fuel → free_node fuel s.mem s.root = .ok (true, h2) :=
  ⟨_, rfl, unload_returns_true 45 example_source _ rfl⟩

theorem char_index_tolower_replace (c : Char) :
    char_index (tolower (replace_non_letter c)) = char_index (tolower c) := by
  unfold replace_non_letter
  split
  · rfl
  · next hna =>
    have h1 : tolower (Char.ofNat 39) = Char.ofNat 39 := by decide
    have h2 : char_index (Char.ofNat 39) = 26 := by decide
    have h3 : tolower c = c := by
      unfold tolower
      unfold isalpha at hna
      split
      · next hu => simp [hu.1, hu.2] at hna
      · rfl
    rw [h1, h2, h3]
    unfold char_index
    simp [hna]

theorem check_loop_replace (h : Heap) (W : List Char) :
    ∀ p, check_loop h p (W.map replace_non_letter) = check_loop h p W := by
  induction W with
  | nil => intro p; rfl
  | cons c cs ih =>
    intro p
    simp only [List.map_cons, check_loop, char_index_tolower_replace]
    split
    · rfl
    · split
      · rfl
      · rfl
      · exact ih _

/-- C17: `char_index` gives 26 for every character that is not a letter, so in every state
`check` returns the same result for a word and for the word with each non-letter replaced
by an apostrophe; with `cat's` loaded (through a read buffer of at least six characters),
`check` finds `cat5s` as it finds `cat's`. -/
theorem check_reads_non_letter_as_apostrophe :
    (∀ c, isalpha c = true ∨ char_index c = 26) ∧
    (∀ (s : State) (W : List Char), check s (W.map replace_non_letter) = check s W) ∧
    "cat5s".toList.map replace_non_letter = "cat's".toList ∧
    ∀ LENGTH : Nat, ∃ s, load (LENGTH + 6) State.init (some ["cat's".toList]) = .ok (true, s) ∧
      check s "cat5s".toList = .ok true ∧ check s "cat's".toList = .ok true := by
  refine ⟨?_, ?_, by decide, ?_⟩
  rotate_left 2
  · intro LENGTH
    have hfit : ∀ t ∈ ["cat's".toList], t.length < LENGTH + 6 := by
      intro t ht
      have h1 : t.length = 5 := by
        revert t
        decide
      omega
    rw [load_length_irrelevant (LENGTH + 6) 45 _ hfit (by decide)]
    exact ⟨_, rfl, rfl, rfl⟩
  · intro c
    cases hc : isalpha c with
    | true => exact Or.inl rfl
    | false => right; simp [char_index, hc]
  · intro s W
    simp only [check, check_loop_replace]

/-! ## Insertion only adds, and adds nothing the second time -/

theorem Preserved.refl (h : Heap) : Preserved h h :=
  fun _ n hn => ⟨n, hn, fun x => x, fun _ _ x => x⟩

theorem Preserved.trans {h1 h2 h3 : Heap} (h12 : Preserved h1 h2) (h23 : Preserved h2 h3) :
    Preserved h1 h3 := by
  intro a n hn
  obtain ⟨n2, hn2, hf2, he2⟩ := h12 a n hn
  obtain ⟨n3, hn3, hf3, he3⟩ := h23 a n2 hn2
  exact ⟨n3, hn3, fun x => hf3 (hf2 x), fun i b x => he3 i b (he2 i b x)⟩

theorem preserved_grow (h : Heap) (a : Nat) (n : node) (i : Nat) (hn : h[a]? = some (some n))
    (hnone : n.children[i]? = some none) : Preserved h (grow h a n i) := by
  intro b m hm
  have ha := lt_of_get_some h a _ hn
  have hi : i < n.children.length := lt_of_get_some _ i _ hnone
  by_cases hba : b = a
  · subst hba
    rw [hn] at hm
    simp only [Option.some.injEq] at hm
    subst hm
    refine ⟨_, grow_get_parent h b n i ha, fun x => x, ?_⟩
    intro j c hc
    simp only
    rw [set_child_get _ _ hi]
    have : ¬ j = i := by
      intro e
      rw [e, hnone] at hc
      cases hc
    simpa [this] using hc
  · exact ⟨m, by rw [grow_get_old h a n i ha b hba (lt_of_get_some h b _ hm)]; exact hm,
      fun x => x, fun _ _ x => x⟩

theorem preserved_mark (h : Heap) (a : Nat) (n : node) (hn : h[a]? = some (some n)) :
    Preserved h (h.set a (some { n with is_word := true })) := by
  intro b m hm
  have ha := lt_of_get_some h a _ hn
  rw [set_cell h a _ ha b]
  by_cases hba : b = a
  · subst hba
    rw [hn] at hm
    simp only [Option.some.injEq] at hm
    subst hm
    exact ⟨{ n with is_word := true }, by simp, fun _ => rfl, fun _ _ x => x⟩
  · exact ⟨m, by simpa [hba] using hm, fun x => x, fun _ _ x => x⟩

/-- One round of the loop of `trie_insert` at an allocated node. -/
theorem trie_insert_loop_cons (h : Heap) (a : Nat) (c : Char) (cs : List Char) (n : node)
    (hn : h[a]? = some (some n)) :
    trie_insert_loop h (some a) (c :: cs) =
      match child_at n (char_index c) with
      | .error e => .error e
      | .ok (some b) => trie_insert_loop h (some b) cs
      | .ok none => trie_insert_loop (grow h a n (char_index c).toNat) (some h.length) cs := by
  have ha := lt_of_get_some h a _ hn
  have hn1 : (h ++ [some (node.mk false (List.replicate 27 none))])[a]? = some (some n) := by
    rw [List.getElem?_append_left ha]; exact hn
  simp only [trie_insert_loop, deref_some h a n hn, node_init, store_some _ a n _ hn1]
  split <;> rfl

/-- The loop of `trie_insert` keeps the heap, and run again on any heap that keeps its
result it changes nothing and ends at the same node. -/
theorem trie_insert_loop_replay (w : List Char) :
    ∀ (h : Heap) (a : Nat) (h2 : Heap) (p2 : ptr),
      trie_insert_loop h (some a) w = .ok (h2, p2) →
      Preserved h h2 ∧ h.length ≤ h2.length ∧ ∃ a2, p2 = some a2 ∧
        ∀ h3, Preserved h2 h3 → trie_insert_loop h3 (some a) w = .ok (h3, some a2) := by
  induction w with
  | nil =>
    intro h a h2 p2 hrun
    simp only [trie_insert_loop, Except.ok.injEq, Prod.mk.injEq] at hrun
    obtain ⟨rfl, rfl⟩ := hrun
    exact ⟨Preserved.refl h, le_refl _, a, rfl, fun h3 _ => rfl⟩
  | cons c cs ih =>
    intro h a h2 p2 hrun
    have hd : ∃ n, h[a]? = some (some n) := by
      simp only [trie_insert_loop] at hrun
      split at hrun
      · cases hrun
      · next n hn =>
        obtain ⟨a1, ha1, hn1⟩ := deref_ok h (some a) n hn
        simp only [Option.some.injEq] at ha1
        subst ha1
        exact ⟨n, hn1⟩
    obtain ⟨n, hn⟩ := hd
    rw [trie_insert_loop_cons h a c cs n hn] at hrun
    split at hrun
    · cases hrun
    · next b hb =>
      have hr := child_at_range n _ _ hb
      obtain ⟨hp, hle, a2, ha2, hrep⟩ := ih h b h2 p2 hrun
      refine ⟨hp, hle, a2, ha2, ?_⟩
      intro h3 h23
      obtain ⟨n3, hn3, _, he3⟩ := (hp.trans h23) a n hn
      rw [trie_insert_loop_cons h3 a c cs n3 hn3,
        child_at_eq n3 _ _ ⟨hr.1, hr.2.1⟩ (he3 _ b hr.2.2)]
      exact hrep h3 h23
    · next hb =>
      have hr := child_at_range n _ _ hb
      have hg := preserved_grow h a n _ hn hr.2.2
      have hi : (char_index c).toNat < n.children.length := lt_of_get_some _ _ _ hr.2.2
      have hedge : (n.children.set (char_index c).toNat (some h.length))[(char_index c).toNat]? =
          some (some h.length) := by
        rw [set_child_get _ _ hi]
        simp
      obtain ⟨hp, hle, a2, ha2, hrep⟩ := ih _ h.length h2 p2 hrun
      rw [grow_length] at hle
      refine ⟨hg.trans hp, by omega, a2, ha2, ?_⟩
      intro h3 h23
      obtain ⟨n3, hn3, _, he3⟩ :=
        (hp.trans h23) a _ (grow_get_parent h a n _ (lt_of_get_some h a _ hn))
      rw [trie_insert_loop_cons h3 a c cs n3 hn3,
        child_at_eq n3 _ _ ⟨hr.1, hr.2.1⟩ (he3 _ _ hedge)]
      exact hrep h3 h23

/-- Whenever `trie_insert` returns, the heap it returns keeps the heap it was given, and
inserting the same word again returns that very heap. -/
theorem trie_insert_preserved (h : Heap) (root : ptr) (w : List Char) (h1 : Heap)
    (hins : trie_insert h root w = .ok h1) :
    Preserved h h1 ∧ h.length ≤ h1.length ∧ trie_insert h1 root w = .ok h1 := by
  cases root with
  | none =>
    cases w with
    | nil => simp [trie_insert, trie_insert_loop, deref] at hins
    | cons c cs => simp [trie_insert, trie_insert_loop, deref] at hins
  | some r =>
    unfold trie_insert at hins
    split at hins
    · cases hins
    · next h2 trie hrun =>
      obtain ⟨hp, hle, a2, rfl, hrep⟩ := trie_insert_loop_replay w h r h2 trie hrun
      split at hins
      · cases hins
      · next n hd =>
        obtain ⟨a3, ha3, hn⟩ := deref_ok h2 (some a2) n hd
        simp only [Option.some.injEq] at ha3
        subst ha3
        rw [store_some h2 a2 n _ hn] at hins
        simp only [Except.ok.injEq] at hins
        subst hins
        have ha2 := lt_of_get_some h2 a2 _ hn
        have hm := preserved_mark h2 a2 n hn
        have hget : (h2.set a2 (some { n with is_word := true }))[a2]? =
            some (some { n with is_word := true }) := by
          rw [set_cell h2 a2 _ ha2 a2]; simp
        refine ⟨hp.trans hm, by rw [List.length_set]; exact hle, ?_⟩
        simp only [trie_insert, hrep _ hm, deref_some _ a2 _ hget, store_some _ a2 _ _ hget,
          List.set_set]

theorem check_cons_some (h : Heap) (a k : Nat) (c : Char) (cs : List Char) (n : node)
    (hn : h[a]? = some (some n)) :
    check ⟨h, some a, k⟩ (c :: cs) =
      match child_at n (char_index (tolower c)) with
      | .error e => .error e
      | .ok none => .ok false
      | .ok (some b) => check ⟨h, some b, k⟩ cs := by
  simp only [check, check_loop, deref_some h a n hn]
  cases child_at n (char_index (tolower c)) with
  | error e => rfl
  | ok p =>
    cases p with
    | none => rfl
    | some b => rfl

/-- A word that `check` finds is still found in every heap that keeps the heap. -/
theorem check_preserved (h h2 : Heap) (hp : Preserved h h2) (k k2 : Nat) (v : List Char) :
    ∀ root, check ⟨h, root, k⟩ v = .ok true → check ⟨h2, root, k2⟩ v = .ok true := by
  induction v with
  | nil =>
    intro root hc
    cases root with
    | none => simp [check, check_loop] at hc
    | some a =>
      simp only [check, check_loop] at hc
      split at hc
      · cases hc
      · next n hd =>
        obtain ⟨a1, ha1, hn⟩ := deref_ok h (some a) n hd
        simp only [Option.some.injEq] at ha1
        subst ha1
        simp only [Except.ok.injEq] at hc
        obtain ⟨n2, hn2, hf, _⟩ := hp a n hn
        simp [check, check_loop, deref_some h2 a n2 hn2, hf hc]
  | cons c cs ih =>
    intro root hc
    cases root with
    | none => simp [check, check_loop, deref] at hc
    | some a =>
      have hd : ∃ n, h[a]? = some (some n) := by
        simp only [check, check_loop] at hc
        cases hda : deref h (some a) with
        | error e => rw [hda] at hc; simp at hc
        | ok n =>
          obtain ⟨a1, ha1, hn⟩ := deref_ok h (some a) n hda
          simp only [Option.some.injEq] at ha1
          subst ha1
          exact ⟨n, hn⟩
      obtain ⟨n, hn⟩ := hd
      rw [check_cons_some h a k c cs n hn] at hc
      obtain ⟨n2, hn2, _, he⟩ := hp a n hn
      rw [check_cons_some h2 a k2 c cs n2 hn2]
      split at hc
      · cases hc
      · cases hc
      · next b hb =>
        have hr := child_at_range n _ _ hb
        rw [child_at_eq n2 _ _ ⟨hr.1, hr.2.1⟩ (he _ b hr.2.2)]
        exact ih (some b) hc

/-- C13: whenever `trie_insert` of a word into a tree returns, inserting the word a second
time returns exactly the heap of the first insertion (no node is added, no flag changes),
while the loop of `load` on the word twice, read through a buffer that the word fits, ends
with that heap and still increments the counter twice. -/
theorem trie_insert_idempotent (h : Heap) (root : ptr) (w : List Char) (h1 : Heap)
    (hins : trie_insert h root w = .ok h1) :
    trie_insert h1 root w = .ok h1 ∧
      ∀ LENGTH k, w.length < LENGTH →
        load_loop LENGTH ⟨h, root, k⟩ [w, w] =
          .ok ⟨h1, root, ((k + 1) % 2 ^ UINT_BITS + 1) % 2 ^ UINT_BITS⟩ := by
  have h2 := (trie_insert_preserved h root w h1 hins).2.2
  refine ⟨h2, ?_⟩
  intro LENGTH k hfit
  simp only [load_loop, hfit, if_true, hins, h2]

theorem trie_insert_idempotent_witness :
    ∃ h1, trie_insert [some (node.mk false (List.replicate 27 none))] (some 0) "cat".toList =
        .ok h1 ∧
      trie_insert h1 (some 0) "cat".toList = .ok h1 ∧
      ∀ LENGTH k, "cat".toList.length < LENGTH →
        load_loop LENGTH ⟨[some (node.mk false (List.replicate 27 none))], some 0, k⟩
            ["cat".toList, "cat".toList] =
          .ok ⟨h1, some 0, ((k + 1) % 2 ^ UINT_BITS + 1) % 2 ^ UINT_BITS⟩ :=
  ⟨_, rfl, trie_insert_idempotent _ (some 0) "cat".toList _ rfl⟩

/-- C14: whenever `trie_insert` of a word into a tree returns, every node and edge of the
tree is still present in the heap it returns, no `is_word` flag went from true to false, and
every word that `check` found before is still found. -/
theorem trie_insert_only_adds (h : Heap) (root : ptr) (w : List Char) (h1 : Heap)
    (hins : trie_insert h root w = .ok h1) :
    Preserved h h1 ∧ h.length ≤ h1.length ∧
      ∀ (k : Nat) (v : List Char), check ⟨h, root, k⟩ v = .ok true →
        check ⟨h1, root, k⟩ v = .ok true := by
  obtain ⟨hp, hle, _⟩ := trie_insert_preserved h root w h1 hins
  exact ⟨hp, hle, fun k v hc => check_preserved h h1 hp k k v root hc⟩

theorem trie_insert_only_adds_witness :
    ∃ s h1, load 45 State.init (some ["cat".toList]) = .ok (true, s) ∧
      trie_insert s.mem s.root "car".toList = .ok h1 ∧
      Preserved s.mem h1 ∧ s.mem.length ≤ h1.length ∧
      ∀ (k : Nat) (v : List Char), check ⟨s.mem, s.root, k⟩ v = .ok true →
        check ⟨h1, s.root, k⟩ v = .ok true :=
  ⟨_, _, rfl, rfl, trie_insert_only_adds _ _ "car".toList _ rfl⟩

/-! ## The order of insertions -/

/-- The loop of `trie_insert` on a well-formed trie, with the paths of the cells: the cells
that were there keep their path, and the path of every new cell is a prefix of the path of
the start followed by the indices of the word. -/
theorem trie_insert_loop_paths (r : Nat) (S : Set (List Nat)) (w : List Char)
    (hw : in_alphabet w) :
    ∀ (h : Heap) (path : Nat → List Nat) (a : Nat), TrieInv h r S path → a < h.length →
      ∃ h2 a2 path2, trie_insert_loop h (some a) w = .ok (h2, some a2) ∧
        TrieInv h2 r S path2 ∧ a2 < h2.length ∧ path2 a2 = path a ++ insert_path w ∧
        (∀ b, b < h.length → path2 b = path b) ∧
        (∀ b, h.length ≤ b → b < h2.length → path2 b <+: path a ++ insert_path w) := by
  induction w with
  | nil =>
    intro h path a inv ha
    exact ⟨h, a, path, rfl, inv, ha, by simp [insert_path], fun _ _ => rfl,
      fun b h1 h2 => by omega⟩
  | cons c cs ih =>
    intro h path a inv ha
    have hr := hw c (List.mem_cons_self _ _)
    have hcs : in_alphabet cs := fun d hd => hw d (List.mem_cons_of_mem _ hd)
    obtain ⟨n, hn⟩ := inv.shape.live a ha
    have hwid := inv.shape.width a n hn
    have hlt : (char_index c).toNat < n.children.length := by omega
    have hget : n.children[(char_index c).toNat]? = some (n.children[(char_index c).toNat]) :=
      List.getElem?_eq_getElem hlt
    have hsplit : path a ++ insert_path (c :: cs) =
        (path a ++ [(char_index c).toNat]) ++ insert_path cs := by
      simp [insert_path]
    rw [trie_insert_loop_cons h a c cs n hn]
    cases hch : n.children[(char_index c).toNat] with
    | none =>
      rw [hch] at hget
      rw [child_at_eq n _ _ hr hget]
      have inv2 := inv.grow a n _ hn hget
      have hlen := grow_length h a n (char_index c).toNat
      obtain ⟨h3, a3, path3, hrun, inv3, ha3, hp3, hold3, hnew3⟩ :=
        ih hcs (grow h a n (char_index c).toNat) _ h.length inv2 (by omega)
      rw [Function.update_same] at hp3 hnew3
      refine ⟨h3, a3, path3, hrun, inv3, ha3, by rw [hp3, hsplit], ?_, ?_⟩
      · intro b hb
        rw [hold3 b (by omega)]
        exact Function.update_noteq (by omega) _ _
      · intro b hb1 hb2
        rw [hsplit]
        by_cases hbl : b = h.length
        · rw [hbl, hold3 h.length (by omega), Function.update_same]
          exact List.prefix_append _ _
        · exact hnew3 b (by omega) hb2
    | some b =>
      rw [hch] at hget
      rw [child_at_eq n _ _ hr hget]
      have hb := (inv.shape.edge_lt a n _ b hn hget).2
      obtain ⟨h3, a3, path3, hrun, inv3, ha3, hp3, hold3, hnew3⟩ := ih hcs h path b inv hb
      rw [inv.edge_path a n _ b hn hget] at hp3 hnew3
      exact ⟨h3, a3, path3, hrun, inv3, ha3, by rw [hp3, hsplit], hold3,
        fun x h1 h2 => by rw [hsplit]; exact hnew3 x h1 h2⟩

theorem walk_of_preserved (h h2 : Heap) (hp : Preserved h h2) (p : List Nat) (a c : Nat)
    (hw : walk h a p = some c) : walk h2 a p = some c := by
  refine walk_mono h h2 ?_ p a c hw
  intro b n i d hn hd
  obtain ⟨n2, hn2, _, he⟩ := hp b n hn
  exact ⟨n2, hn2, he i d hd⟩

theorem walk_prefix (h : Heap) (a : Nat) (p q : List Nat) (hpq : p <+: q)
    (hq : (walk h a q).isSome = true) : (walk h a p).isSome = true := by
  obtain ⟨t, rfl⟩ := hpq
  rw [walk_append] at hq
  cases hw : walk h a p with
  | none => rw [hw] at hq; simp at hq
  | some c => rfl

/-- The function `trie_insert` on a well-formed trie: the index sequences that lead to a node
afterwards are those that did before and the prefixes of the index sequence of the word. -/
theorem trie_insert_walks (r : Nat) (S : Set (List Nat)) (w : List Char) (hw : in_alphabet w)
    (h : Heap) (path : Nat → List Nat) (inv : TrieInv h r S path) :
    ∃ h2 path2, trie_insert h (some r) w = .ok h2 ∧
      TrieInv h2 r (insert (insert_path w) S) path2 ∧
      ∀ p, (walk h2 r p).isSome = true ↔ ((walk h r p).isSome = true ∨ p <+: insert_path w) := by
  obtain ⟨h1, a1, path1, hrun, inv1, ha1, hp1, hold, hnew⟩ :=
    trie_insert_loop_paths r S w hw h path r inv inv.root_lt
  obtain ⟨n, hn⟩ := inv1.shape.live a1 ha1
  have inv2 := inv1.mark a1 n hn
  rw [hp1, inv.root_path, List.nil_append] at inv2
  rw [inv.root_path, List.nil_append] at hnew
  have hins : trie_insert h (some r) w = .ok (h1.set a1 (some { n with is_word := true })) := by
    simp only [trie_insert, hrun, deref_some h1 a1 n hn, store_some h1 a1 n _ hn]
  have hpres := (trie_insert_preserved h (some r) w _ hins).1
  refine ⟨_, path1, hins, inv2, ?_⟩
  intro p
  constructor
  · intro hsome
    obtain ⟨c, hc⟩ := Option.isSome_iff_exists.1 hsome
    have hpc := inv2.walk_root_path p c hc
    have hclt := walk_lt _ inv2.shape p r c inv2.root_lt hc
    rw [List.length_set] at hclt
    by_cases hcold : c < h.length
    · left
      have := inv.reach c hcold
      rw [← hold c hcold, hpc] at this
      rw [this]; rfl
    · right
      rw [← hpc]
      exact hnew c (by omega) hclt
  · intro hor
    rcases hor with hsome | hpre
    · obtain ⟨c, hc⟩ := Option.isSome_iff_exists.1 hsome
      rw [walk_of_preserved h _ hpres p r c hc]; rfl
    · obtain ⟨c, hc⟩ := inv2.present (insert_path w) (Set.mem_insert _ _)
      exact walk_prefix _ r p _ hpre (by rw [hc]; rfl)

/-- On a well-formed trie the two orders of inserting two words give the same tree. -/
theorem trie_insert_comm (r : Nat) (S : Set (List Nat)) (w1 w2 : List Char)
    (hw1 : in_alphabet w1) (hw2 : in_alphabet w2) (h : Heap) (path : Nat → List Nat)
    (inv : TrieInv h r S path) :
    ∃ h1 h12 h2 h21, trie_insert h (some r) w1 = .ok h1 ∧ trie_insert h1 (some r) w2 = .ok h12 ∧
      trie_insert h (some r) w2 = .ok h2 ∧ trie_insert h2 (some r) w1 = .ok h21 ∧
      same_tree h12 r h21 r := by
  obtain ⟨h1, path1, hi1, inv1, hwalk1⟩ := trie_insert_walks r S w1 hw1 h path inv
  obtain ⟨h12, path12, hi12, inv12, hwalk12⟩ := trie_insert_walks r _ w2 hw2 h1 path1 inv1
  obtain ⟨h2, path2, hi2, inv2, hwalk2⟩ := trie_insert_walks r S w2 hw2 h path inv
  obtain ⟨h21, path21, hi21, inv21, hwalk21⟩ := trie_insert_walks r _ w1 hw1 h2 path2 inv2
  refine ⟨h1, h12, h2, h21, hi1, hi12, hi2, hi21, ?_⟩
  intro p
  constructor
  · rw [Bool.eq_iff_iff, hwalk12 p, hwalk1 p, hwalk21 p, hwalk2 p]
    tauto
  · rw [Bool.eq_iff_iff, inv12.lookup_iff p, inv21.lookup_iff p]
    simp only [Set.mem_insert_iff]
    tauto

theorem load_loop_walks (LENGTH r : Nat) (F : List (List Char)) (hF : ∀ t ∈ F, in_alphabet t)
    (hlen : ∀ t ∈ F, t.length < LENGTH) :
    ∀ (s : State) (S : Set (List Nat)) (path : Nat → List Nat), s.root = some r →
      TrieInv s.mem r S path →
      ∃ s2 path2, load_loop LENGTH s F = .ok s2 ∧ s2.root = some r ∧
        TrieInv s2.mem r (S ∪ {p | p ∈ F.map insert_path}) path2 ∧
        ∀ p, (walk s2.mem r p).isSome = true ↔
          ((walk s.mem r p).isSome = true ∨ ∃ t ∈ F, p <+: insert_path t) := by
  induction F with
  | nil =>
    intro s S path hroot inv
    refine ⟨s, path, rfl, hroot, by simpa using inv, ?_⟩
    intro p
    simp
  | cons t rest ih =>
    intro s S path hroot inv
    have ht := hF t (List.mem_cons_self _ _)
    have hrest : ∀ u ∈ rest, in_alphabet u := fun u hu => hF u (List.mem_cons_of_mem _ hu)
    have hlt : t.length < LENGTH := hlen t (List.mem_cons_self _ _)
    have hlrest : ∀ u ∈ rest, u.length < LENGTH :=
      fun u hu => hlen u (List.mem_cons_of_mem _ hu)
    obtain ⟨h2, path2, hins, inv2, hwalk2⟩ := trie_insert_walks r S t ht s.mem path inv
    obtain ⟨s3, path3, hrun, hroot3, inv3, hwalk3⟩ :=
      ih hrest hlrest
        { s with mem := h2,
                 dictionary_word_count := (s.dictionary_word_count + 1) % 2 ^ UINT_BITS }
        (insert (insert_path t) S) path2 hroot inv2
    refine ⟨s3, path3, ?_, hroot3, ?_, ?_⟩
    · rw [← hroot] at hins
      simp only [load_loop, hlt, if_true, hins]
      exact hrun
    · have hset : insert (insert_path t) S ∪ {p | p ∈ rest.map insert_path} =
          S ∪ {p | p ∈ (t :: rest).map insert_path} := by
        ext p
        simp only [Set.mem_union, Set.mem_insert_iff, Set.mem_setOf_eq, List.map_cons,
          List.mem_cons]
        tauto
      rw [← hset]
      exact inv3
    · intro p
      rw [hwalk3 p]
      simp only [hwalk2 p, List.mem_cons, exists_eq_or_imp]
      tauto

theorem walk_root_only (p : List Nat) :
    (walk [some (node.mk false (List.replicate 27 none))] 0 p).isSome = true ↔ p = [] := by
  cases p with
  | nil => simp [walk]
  | cons i is =>
    simp only [walk, List.getElem?_cons_zero]
    have hnone := replicate_none_get 27 i
    cases hc : (List.replicate 27 (none : Option Nat))[i]? with
    | none => simp
    | some x =>
      cases x with
      | none => simp
      | some b => exact absurd hc (hnone b)

/-- After a load from the never-loaded state of tokens over the alphabet that fit the read
buffer, the index sequences that lead to a node of the trie are the empty one and the
prefixes of the index sequences of the tokens. -/
theorem load_init_walks (LENGTH : Nat) (F : List (List Char)) (hF : ∀ t ∈ F, in_alphabet t)
    (hlen : ∀ t ∈ F, t.length < LENGTH) :
    ∃ s path, load LENGTH State.init (some F) = .ok (true, s) ∧ s.root = some 0 ∧
      TrieInv s.mem 0 {p | p ∈ F.map insert_path} path ∧
      ∀ p, (walk s.mem 0 p).isSome = true ↔ (p = [] ∨ ∃ t ∈ F, p <+: insert_path t) := by
  obtain ⟨s2, path2, hrun, hroot, inv, hwalk⟩ :=
    load_loop_walks LENGTH 0 F hF hlen
      ⟨[some (node.mk false (List.replicate 27 none))], some 0, 0⟩ ∅
      (fun _ => []) rfl TrieInv.root_only
  refine ⟨s2, path2, ?_, hroot, by simpa using inv, ?_⟩
  · simp only [load, State.init, node_init, List.length_nil, List.nil_append, hrun]
  · intro p
    rw [hwalk p, walk_root_only]

/-- C18: on every tree built by a load from the never-loaded state (of tokens over the
alphabet that fit the read buffer), inserting two words over the alphabet in one order or in
the other gives the same tree (the same index sequences lead to a node, with the same
`is_word` flags), and two sources with the same set of tokens load into the same tree. -/
theorem insertion_order_irrelevant (LENGTH : Nat) (F G : List (List Char)) (w1 w2 : List Char)
    (hF : ∀ t ∈ F, in_alphabet t) (hG : ∀ t ∈ G, in_alphabet t)
    (hlenF : ∀ t ∈ F, t.length < LENGTH) (hlenG : ∀ t ∈ G, t.length < LENGTH)
    (hw1 : in_alphabet w1) (hw2 : in_alphabet w2) (hFG : ∀ t, t ∈ F ↔ t ∈ G) :
    ∃ s r h1 h12 h2 h21 sG rG, load LENGTH State.init (some F) = .ok (true, s) ∧
      s.root = some r ∧
      trie_insert s.mem s.root w1 = .ok h1 ∧ trie_insert h1 s.root w2 = .ok h12 ∧
      trie_insert s.mem s.root w2 = .ok h2 ∧ trie_insert h2 s.root w1 = .ok h21 ∧
      same_tree h12 r h21 r ∧
      load LENGTH State.init (some G) = .ok (true, sG) ∧ sG.root = some rG ∧
      same_tree s.mem r sG.mem rG := by
  obtain ⟨s, path, hload, hroot, inv, hwalk⟩ := load_init_walks LENGTH F hF hlenF
  obtain ⟨sG, pathG, hloadG, hrootG, invG, hwalkG⟩ := load_init_walks LENGTH G hG hlenG
  obtain ⟨h1, h12, h2, h21, hi1, hi12, hi2, hi21, hsame⟩ :=
    trie_insert_comm 0 _ w1 w2 hw1 hw2 s.mem path inv
  rw [← hroot] at hi1 hi12 hi2 hi21
  refine ⟨s, 0, h1, h12, h2, h21, sG, 0, hload, hroot, hi1, hi12, hi2, hi21, hsame, hloadG,
    hrootG, ?_⟩
  intro p
  constructor
  · rw [Bool.eq_iff_iff, hwalk p, hwalkG p]
    simp only [hFG]
  · rw [Bool.eq_iff_iff, inv.lookup_iff p, invG.lookup_iff p]
    simp only [Set.mem_setOf_eq, List.mem_map, hFG]

theorem insertion_order_irrelevant_witness :
    (∀ t ∈ ["cat".toList, "dog".toList, "cat".toList], in_alphabet t) ∧
    (∀ t ∈ ["dog".toList, "cat".toList], in_alphabet t) ∧
    (∀ t ∈ ["cat".toList, "dog".toList, "cat".toList], t.length < 45) ∧
    (∀ t ∈ ["dog".toList, "cat".toList], t.length < 45) ∧
    in_alphabet "car".toList ∧ in_alphabet "cart".toList ∧
    (∀ t, t ∈ ["cat".toList, "dog".toList, "cat".toList] ↔ t ∈ ["dog".toList, "cat".toList]) ∧
    ∃ s r h1 h12 h2 h21 sG rG,
      load 45 State.init (some ["cat".toList, "dog".toList, "cat".toList]) = .ok (true, s) ∧
      s.root = some r ∧
      trie_insert s.mem s.root "car".toList = .ok h1 ∧
      trie_insert h1 s.root "cart".toList = .ok h12 ∧
      trie_insert s.mem s.root "cart".toList = .ok h2 ∧
      trie_insert h2 s.root "car".toList = .ok h21 ∧
      same_tree h12 r h21 r ∧
      load 45 State.init (some ["dog".toList, "cat".toList]) = .ok (true, sG) ∧
      sG.root = some rG ∧ same_tree s.mem r sG.mem rG :=
  have hF : ∀ t ∈ ["cat".toList, "dog".toList, "cat".toList], in_alphabet t :=
    fun t ht => in_alphabet_of_dict t (by revert t; decide)
  have hG : ∀ t ∈ ["dog".toList, "cat".toList], in_alphabet t :=
    fun t ht => in_alphabet_of_dict t (by revert t; decide)
  have hw1 : in_alphabet "car".toList := in_alphabet_of_dict _ (by decide)
  have hw2 : in_alphabet "cart".toList := in_alphabet_of_dict _ (by decide)
  have hFG : ∀ t, t ∈ ["cat".toList, "dog".toList, "cat".toList] ↔
      t ∈ ["dog".toList, "cat".toList] := by
    intro t
    simp only [List.mem_cons, List.mem_singleton, List.not_mem_nil, or_false]
    tauto
  ⟨hF, hG, by decide, by decide, hw1, hw2, hFG,
    insertion_order_irrelevant 45 _ _ "car".toList "cart".toList hF hG (by decide) (by decide)
      hw1 hw2 hFG⟩

end Dictionary

namespace Resize

theorem to_size_t_natCast (k : Nat) (hk : k < SIZE_MODULUS) : to_size_t (k : Int) = k := by
  unfold to_size_t
  unfold SIZE_MODULUS at hk ⊢
  omega

theorem scanline_padding_natCast (W : Nat) (hW : (W : Int) ≤ INT_MAX) :
    scanline_padding (W : Int) = (file_padding W : Int) := by
  unfold INT_MAX at hW
  have hk : W < SIZE_MODULUS := by unfold SIZE_MODULUS; omega
  unfold scanline_padding file_padding
  rw [to_size_t_natCast W hk]
  unfold sizeof_RGBTRIPLE SIZE_MODULUS
  congr 1
  omega

theorem file_padding_le (W : Nat) : file_padding W ≤ 3 := by
  unfold file_padding
  omega

theorem file_padding_aligns (W : Nat) : (3 * W + file_padding W) % 4 = 0 := by
  unfold file_padding
  omega

theorem length_write_pixels (l : List RGBTRIPLE) : (write_pixels l).length = 3 * l.length := by
  induction l with
  | nil => rfl
  | cons t rest ih =>
    simp only [write_pixels, triple_bytes, List.length_append, List.length_cons,
      List.length_nil, ih]
    omega

theorem length_fill_line (n : Nat) (row : List RGBTRIPLE) :
    (fill_line n row).length = row.length * n := by
  induction row with
  | nil => simp [fill_line]
  | cons t rest ih =>
    simp only [fill_line, List.length_append, List.length_replicate, List.length_cons, ih]
    ring

theorem length_write_scanline (n : Nat) (row : List RGBTRIPLE) (padding : Nat) :
    (write_scanline (fill_line n row) (row.length * n) padding).length =
      3 * (row.length * n) + padding := by
  unfold write_scanline
  rw [List.length_append, length_write_pixels, List.length_take, length_fill_line,
    List.length_replicate, Nat.min_self]

/-- C19 on the code: for an input one pixel wide and the factor 2 the padding passed to
`fseek` is 2, the padding of the output scanlines, while the input scanlines carry one byte
of padding. -/
theorem fseek_skips_output_padding :
    (rewrite_headers 1 1 2).map fseek_offset = some 2 ∧ file_padding (1 * 2) = 2 ∧
      file_padding 1 = 1 :=
  ⟨rfl, rfl, rfl⟩

/-- C20: for every input width `w ≥ 1`, height `h` and factor `n` in `1..100` such that no
operation overflows, the header rewrite returns; the padding is in `0..3` and brings the
`3 * w * n` pixel bytes of an output scanline up to a multiple of four; `biSizeImage` is
`(3 * w * n + padding) * |h * n|` and `bfSize` is `biSizeImage + 54`; and an output scanline
written from an input scanline of `w` pixels is `3 * w * n + padding` bytes long. -/
theorem headers_after_rewrite (w n : Nat) (h : Int) (hw : 1 ≤ w) (hn : 1 ≤ n ∧ n ≤ 100)
    (hW : ((w * n : Nat) : Int) ≤ INT_MAX)
    (hH : INT_MIN < h * (n : Int) ∧ h * (n : Int) ≤ INT_MAX)
    (hsize : (3 * (w * n) + file_padding (w * n)) * (h * (n : Int)).natAbs + 54 <
      DWORD_MODULUS) :
    ∃ hd, rewrite_headers (w : Int) h (n : Int) = some hd ∧
      hd.biWidth = ((w * n : Nat) : Int) ∧ hd.biHeight = h * (n : Int) ∧
      0 ≤ hd.padding ∧ hd.padding ≤ 3 ∧ (3 * ((w * n : Nat) : Int) + hd.padding) % 4 = 0 ∧
      (hd.biSizeImage : Int) = (3 * ((w * n : Nat) : Int) + hd.padding) * |h * (n : Int)| ∧
      hd.bfSize = hd.biSizeImage + 54 ∧
      ∀ row : List RGBTRIPLE, row.length = w →
        ((write_scanline (fill_line n row) hd.biWidth.toNat hd.padding.toNat).length : Int) =
          3 * ((w * n : Nat) : Int) + hd.padding ∧
        (write_scanline (fill_line n row) hd.biWidth.toNat hd.padding.toNat).length % 4 = 0 := by
  have hn1 : (1 : Int) ≤ (n : Int) := by exact_mod_cast hn.1
  have hWpos : 1 ≤ w * n := Nat.mul_pos hw hn.1
  have hP := file_padding_le (w * n)
  have hal := file_padding_aligns (w * n)
  -- the input height is an `int` other than `INT_MIN`
  have hh : INT_MIN < h ∧ h ≤ INT_MAX := by
    rcases le_or_lt 0 h with h0 | hneg
    · have := le_mul_of_one_le_right h0 hn1
      exact ⟨lt_of_lt_of_le (by decide) h0, le_trans this hH.2⟩
    · have := mul_le_of_one_le_right (le_of_lt hneg) hn1
      exact ⟨lt_of_lt_of_le hH.1 this, le_trans (le_of_lt hneg) (by decide)⟩
  have e1 : abs_int h = some (Int.natAbs h : Int) := by
    unfold abs_int; rw [if_pos hh]
  have e2 : mul_int (w : Int) (n : Int) = some ((w * n : Nat) : Int) := by
    have hc : (w : Int) * (n : Int) = ((w * n : Nat) : Int) := by push_cast; rfl
    have hlo : INT_MIN ≤ ((w * n : Nat) : Int) :=
      le_trans (by decide) (Int.ofNat_nonneg (w * n))
    unfold mul_int; rw [hc, if_pos ⟨hlo, hW⟩]
  have e3 : mul_int h (n : Int) = some (h * (n : Int)) := by
    unfold mul_int; rw [if_pos ⟨le_of_lt hH.1, hH.2⟩]
  have e4 : scanline_padding ((w * n : Nat) : Int) = (file_padding (w * n) : Int) :=
    scanline_padding_natCast (w * n) hW
  have e5 : abs_int (h * (n : Int)) = some ((h * (n : Int)).natAbs : Int) := by
    unfold abs_int; rw [if_pos hH]
  -- the products that enter `biSizeImage`
  have hpa : file_padding (w * n) * (h * (n : Int)).natAbs ≤
      3 * (w * n) * (h * (n : Int)).natAbs :=
    Nat.mul_le_mul_right _ (by omega)
  have hexp : (3 * (w * n) + file_padding (w * n)) * (h * (n : Int)).natAbs =
      3 * (w * n) * (h * (n : Int)).natAbs +
        file_padding (w * n) * (h * (n : Int)).natAbs := by ring
  have hD : DWORD_MODULUS = 4294967296 := rfl
  have hsmall : (h * (n : Int)).natAbs * file_padding (w * n) ≤ 2147483647 := by
    rw [Nat.mul_comm]; omega
  have e6 : mul_int ((h * (n : Int)).natAbs : Int) (file_padding (w * n) : Int) =
      some (((h * (n : Int)).natAbs * file_padding (w * n) : Nat) : Int) := by
    have hc : ((h * (n : Int)).natAbs : Int) * (file_padding (w * n) : Int) =
        (((h * (n : Int)).natAbs * file_padding (w * n) : Nat) : Int) := by push_cast; rfl
    have hlo : INT_MIN ≤ (((h * (n : Int)).natAbs * file_padding (w * n) : Nat) : Int) :=
      le_trans (by decide) (Int.ofNat_nonneg _)
    have hhi : (((h * (n : Int)).natAbs * file_padding (w * n) : Nat) : Int) ≤ INT_MAX := by
      unfold INT_MAX; exact_mod_cast hsmall
    unfold mul_int; rw [hc, if_pos ⟨hlo, hhi⟩]
  have hWlt : w * n ≤ 2147483647 := by unfold INT_MAX at hW; exact_mod_cast hW
  have hAle : (h * (n : Int)).natAbs ≤ 3 * (w * n) * (h * (n : Int)).natAbs :=
    Nat.le_mul_of_pos_left _ (by omega)
  have s1 : to_size_t ((w * n : Nat) : Int) = w * n :=
    to_size_t_natCast _ (by unfold SIZE_MODULUS; omega)
  have s2 : to_size_t ((h * (n : Int)).natAbs : Int) = (h * (n : Int)).natAbs :=
    to_size_t_natCast _ (by unfold SIZE_MODULUS; omega)
  have s3 : to_size_t (((h * (n : Int)).natAbs * file_padding (w * n) : Nat) : Int) =
      (h * (n : Int)).natAbs * file_padding (w * n) :=
    to_size_t_natCast _ (by unfold SIZE_MODULUS; omega)
  have m1 : w * n * 3 % SIZE_MODULUS = w * n * 3 :=
    Nat.mod_eq_of_lt (by unfold SIZE_MODULUS; omega)
  have r1 : w * n * 3 * (h * (n : Int)).natAbs = 3 * (w * n) * (h * (n : Int)).natAbs := by ring
  have r2 : (h * (n : Int)).natAbs * file_padding (w * n) =
      file_padding (w * n) * (h * (n : Int)).natAbs := Nat.mul_comm _ _
  have m2 : w * n * 3 * (h * (n : Int)).natAbs % SIZE_MODULUS =
      w * n * 3 * (h * (n : Int)).natAbs :=
    Nat.mod_eq_of_lt (by rw [r1]; unfold SIZE_MODULUS; omega)
  have m3 : (w * n * 3 * (h * (n : Int)).natAbs +
      (h * (n : Int)).natAbs * file_padding (w * n)) % SIZE_MODULUS =
      w * n * 3 * (h * (n : Int)).natAbs + (h * (n : Int)).natAbs * file_padding (w * n) :=
    Nat.mod_eq_of_lt (by rw [r1, r2]; unfold SIZE_MODULUS; omega)
  have m4 : (w * n * 3 * (h * (n : Int)).natAbs +
      (h * (n : Int)).natAbs * file_padding (w * n)) % DWORD_MODULUS =
      (3 * (w * n) + file_padding (w * n)) * (h * (n : Int)).natAbs := by
    rw [Nat.mod_eq_of_lt (by rw [r1, r2]; omega), hexp, r1, r2]
  have m5 : ((3 * (w * n) + file_padding (w * n)) * (h * (n : Int)).natAbs + 54) %
      DWORD_MODULUS = (3 * (w * n) + file_padding (w * n)) * (h * (n : Int)).natAbs + 54 :=
    Nat.mod_eq_of_lt hsize
  have hrun : rewrite_headers (w : Int) h (n : Int) = some
      { inputHeight := (Int.natAbs h : Int), inputWidth := (w : Int),
        biWidth := ((w * n : Nat) : Int), biHeight := h * (n : Int),
        padding := (file_padding (w * n) : Int),
        biSizeImage := (3 * (w * n) + file_padding (w * n)) * (h * (n : Int)).natAbs,
        bfSize := (3 * (w * n) + file_padding (w * n)) * (h * (n : Int)).natAbs + 54 } := by
    simp only [rewrite_headers, e1, e2, e3, e4, e5, e6, s1, s2, s3, sizeof_RGBTRIPLE, m1, m2,
      m3, m4, m5]
  refine ⟨_, hrun, rfl, rfl, ?_, ?_, ?_, ?_, rfl, ?_⟩
  · exact Int.ofNat_nonneg _
  · show (file_padding (w * n) : Int) ≤ 3
    exact_mod_cast hP
  · show (3 * ((w * n : Nat) : Int) + (file_padding (w * n) : Int)) % 4 = 0
    exact_mod_cast hal
  · show (((3 * (w * n) + file_padding (w * n)) * (h * (n : Int)).natAbs : Nat) : Int) =
      (3 * ((w * n : Nat) : Int) + (file_padding (w * n) : Int)) * |h * (n : Int)|
    rw [Int.abs_eq_natAbs]
    push_cast
    rfl
  · intro row hrow
    show ((write_scanline (fill_line n row) ((w * n : Nat) : Int).toNat
        ((file_padding (w * n) : Nat) : Int).toNat).length : Int) =
          3 * ((w * n : Nat) : Int) + (file_padding (w * n) : Int) ∧
        (write_scanline (fill_line n row) ((w * n : Nat) : Int).toNat
          ((file_padding (w * n) : Nat) : Int).toNat).length % 4 = 0
    rw [Int.toNat_ofNat, Int.toNat_ofNat, ← hrow, length_write_scanline, hrow]
    exact ⟨by push_cast; rfl, hal⟩

theorem headers_after_rewrite_witness :
    1 ≤ 3 ∧ (1 ≤ 2 ∧ 2 ≤ 100) ∧ ((3 * 2 : Nat) : Int) ≤ INT_MAX ∧
    (INT_MIN < (-5 : Int) * ((2 : Nat) : Int) ∧ (-5 : Int) * ((2 : Nat) : Int) ≤ INT_MAX) ∧
    (3 * (3 * 2) + file_padding (3 * 2)) * ((-5 : Int) * ((2 : Nat) : Int)).natAbs + 54 <
      DWORD_MODULUS ∧
    ∃ hd, rewrite_headers ((3 : Nat) : Int) (-5) ((2 : Nat) : Int) = some hd ∧
      hd.biWidth = ((3 * 2 : Nat) : Int) ∧ hd.biHeight = (-5 : Int) * ((2 : Nat) : Int) ∧
      0 ≤ hd.padding ∧ hd.padding ≤ 3 ∧ (3 * ((3 * 2 : Nat) : Int) + hd.padding) % 4 = 0 ∧
      (hd.biSizeImage : Int) =
        (3 * ((3 * 2 : Nat) : Int) + hd.padding) * |(-5 : Int) * ((2 : Nat) : Int)| ∧
      hd.bfSize = hd.biSizeImage + 54 ∧
      ∀ row : List RGBTRIPLE, row.length = 3 →
        ((write_scanline (fill_line 2 row) hd.biWidth.toNat hd.padding.toNat).length : Int) =
          3 * ((3 * 2 : Nat) : Int) + hd.padding ∧
        (write_scanline (fill_line 2 row) hd.biWidth.toNat hd.padding.toNat).length % 4 = 0 :=
  ⟨by decide, by decide, by decide, by decide, by decide,
    headers_after_rewrite 3 2 (-5) (by decide) (by decide) (by decide) (by decide) (by decide)⟩

/-- The header rewrite on a bitmap 3 pixels wide and 5 rows high (stored top-down) with the
factor 2: scanlines of 18 pixel bytes and 2 bytes of padding, 200 bytes of pixel data. -/
theorem rewrite_headers_example :
    rewrite_headers 3 (-5) 2 = some
      { inputHeight := 5, inputWidth := 3, biWidth := 6, biHeight := -10, padding := 2,
        biSizeImage := 200, bfSize := 254 } :=
  rfl

end Resize
